import Mathlib

/-! Shallow embedding of the github_api_core repository's URL-normalization
module (src/url_utils.py) and its repository-URL builder (src/api.py).

Python strings are modelled as `List Char`.  `urllib.parse.urlparse` is
modelled after CPython's urllib.parse (3.11/3.12 line) for the fields the
code reads (scheme, netloc, path, hostname), including the leading
C0-control/space lstrip, removal of tab/CR/LF bytes, and the single
exceptions raised in that fragment: the "Invalid IPv6 URL" ValueError for
an authority with unbalanced square brackets, and the
`_check_bracketed_host` ValueErrors for a bracketed host that is neither
an IPvFuture literal nor a valid IPv6 (optionally zoned) address,
including the full `ipaddress` string grammars for IPv4 and IPv6
addresses.  `repr` inside the not-an-IP-address message is modelled
exactly for ASCII hostnames (quote choice, backslash/quote and
control-character escapes).  `_checknetloc` returns immediately for empty
or ASCII netlocs and is modelled as that early return; its NFKC
comparison, which can reject some non-ASCII netlocs, needs the Unicode
database and is outside the modelled (ASCII-netloc) fragment.
`str.lower()` is modelled as ASCII lowering and `str.strip()` strips the
ASCII whitespace characters (exotic Unicode spaces are not modelled).
Fallible code returns `Except`; the pure helpers are plain functions. -/

/-- The character list of a string literal. -/
def lit (s : String) : List Char := s.data

/-- Characters removed by Python's no-argument `str.strip()` (ASCII part). -/
def isPySpace (c : Char) : Bool :=
  c == ' ' || c == '\t' || c == '\n' || c == '\r' || c.toNat == 11 || c.toNat == 12

/-- `s.lstrip(chars)` for a character predicate. -/
def pyLstrip (p : Char → Bool) (l : List Char) : List Char := l.dropWhile p

/-- `s.rstrip(chars)` for a character predicate. -/
def pyRstrip (p : Char → Bool) (l : List Char) : List Char :=
  (l.reverse.dropWhile p).reverse

/-- `s.strip(chars)` for a character predicate. -/
def pyStrip (p : Char → Bool) (l : List Char) : List Char :=
  pyRstrip p (pyLstrip p l)

/-- `s.startswith(p)`. -/
def startsWithL (p l : List Char) : Prop := l.take p.length = p

instance (p l : List Char) : Decidable (startsWithL p l) := by
  unfold startsWithL; infer_instance

/-- `s.endswith(p)`. -/
def endsWithL (p l : List Char) : Prop := l.drop (l.length - p.length) = p

instance (p l : List Char) : Decidable (endsWithL p l) := by
  unfold endsWithL; infer_instance

/-- `s.split(c, 1)` when it yields two parts: split at the first occurrence
of `c`; `none` when `c` does not occur. -/
def splitFirst (c : Char) (l : List Char) : Option (List Char × List Char) :=
  if c ∈ l then some (l.takeWhile (· != c), (l.dropWhile (· != c)).tail)
  else none

/-- Python `s.replace(old, new)`: replace every non-overlapping occurrence,
left to right.  (All call sites in the source pass a non-empty `old`.) -/
def replaceFuel (old new : List Char) : Nat → List Char → List Char
  | 0, s => s
  | n + 1, s =>
    match s with
    | [] => []
    | c :: rest =>
      if old ≠ [] ∧ s.take old.length = old then
        new ++ replaceFuel old new n (s.drop old.length)
      else
        c :: replaceFuel old new n rest

/-- Python `s.replace(old, new)` via `replaceFuel` with sufficient fuel. -/
def replaceList (old new s : List Char) : List Char :=
  replaceFuel old new s.length s

/-! ## Model of `urllib.parse.urlparse` (fields used by the source) -/

structure SplitResult where
  scheme : List Char
  netloc : List Char
  path : List Char
  query : List Char
  fragment : List Char
deriving DecidableEq

/-- WHATWG C0-control-or-space characters, lstripped from the URL. -/
def isC0OrSpace (c : Char) : Bool := c.toNat ≤ 32

/-- Bytes urllib removes anywhere in the URL (`_UNSAFE_URL_BYTES_TO_REMOVE`). -/
def isUnsafeUrlByte (c : Char) : Bool := c == '\t' || c == '\r' || c == '\n'

/-- Characters allowed in a URL scheme (`scheme_chars`). -/
def isSchemeChar (c : Char) : Bool :=
  c.isAlpha || c.isDigit || c == '+' || c == '-' || c == '.'

/-- The cleaning urlsplit applies to its input before parsing. -/
def urlClean (l : List Char) : List Char :=
  (l.dropWhile isC0OrSpace).filter (fun c => !isUnsafeUrlByte c)

/-- Extract a scheme: requires a colon not in first position, a leading
ASCII letter, and only scheme characters before the colon; the scheme is
lowercased.  Returns (scheme, rest). -/
def splitScheme (url : List Char) : List Char × List Char :=
  if ':' ∈ url then
    if url.takeWhile (· != ':') ≠ [] ∧ url.head?.any Char.isAlpha = true ∧
        (url.takeWhile (· != ':')).all isSchemeChar = true then
      ((url.takeWhile (· != ':')).map Char.toLower, (url.dropWhile (· != ':')).tail)
    else ([], url)
  else ([], url)

/-- Is a character a netloc delimiter (`/`, `?` or `#`)? -/
def isNetlocDelim (c : Char) : Bool := c == '/' || c == '?' || c == '#'

/-- `_splitnetloc`: the netloc runs to the first of `/?#`; returns
(netloc, rest). -/
def splitNetloc (rest : List Char) : List Char × List Char :=
  (rest.takeWhile (fun c => !isNetlocDelim c),
   rest.dropWhile (fun c => !isNetlocDelim c))

/-- Split off a `#fragment` (first occurrence). -/
def splitFragment (url : List Char) : List Char × List Char :=
  if '#' ∈ url then (url.takeWhile (· != '#'), (url.dropWhile (· != '#')).tail)
  else (url, [])

/-- Split off a `?query` (first occurrence). -/
def splitQuery (url : List Char) : List Char × List Char :=
  if '?' ∈ url then (url.takeWhile (· != '?'), (url.dropWhile (· != '?')).tail)
  else (url, [])

/-- ASCII decimal digits, as `octet_str.isascii() and octet_str.isdigit()`
accepts them in `ipaddress.IPv4Address._parse_octet`. -/
def isDecDigit (c : Char) : Bool := 48 ≤ c.toNat && c.toNat ≤ 57

/-- The hex digits `0123456789ABCDEFabcdef` of `ipaddress._HEX_DIGITS`. -/
def isHexDig (c : Char) : Bool :=
  (48 ≤ c.toNat && c.toNat ≤ 57) || (65 ≤ c.toNat && c.toNat ≤ 70) ||
  (97 ≤ c.toNat && c.toNat ≤ 102)

/-- `str.split(sep)` for a one-character separator: `"".split(c) == [""]`,
`":".split(":") == ["", ""]`, and so on. -/
def splitOnChar (c : Char) : List Char → List (List Char)
  | [] => [[]]
  | a :: t =>
    if a = c then [] :: splitOnChar c t
    else
      match splitOnChar c t with
      | [] => [[a]]
      | h :: r => (a :: h) :: r

/-- The decimal value of a digit string (`int(s, 10)` on digits). -/
def decVal (s : List Char) : Nat := s.foldl (fun a c => a * 10 + (c.toNat - 48)) 0

/-- `ipaddress.IPv4Address._parse_octet` succeeds: non-empty, ASCII digits
only, at most three characters, no leading zero (except `"0"` itself), and
value at most 255. -/
def validOctet (s : List Char) : Bool :=
  !s.isEmpty && s.all isDecDigit && decide (s.length ≤ 3) &&
  (s == ['0'] || !(s.head? == some '0')) && decide (decVal s ≤ 255)

/-- `ipaddress.IPv4Address` accepts the string: no `/`, and exactly four
valid dotted octets (`_ip_int_from_string`). -/
def validIPv4 (s : List Char) : Bool :=
  !s.contains '/' && !s.isEmpty &&
    (let octets := splitOnChar '.' s
     octets.length == 4 && octets.all validOctet)

/-- One hextet as `ipaddress.IPv6Address._parse_hextet` accepts it: hex
digits only, at most four of them, non-empty (the empty string fails the
final `int` conversion there). -/
def validHextet (s : List Char) : Bool :=
  s.all isHexDig && decide (s.length ≤ 4) && !s.isEmpty

/-- The hextet/`::` analysis of `IPv6Address._ip_int_from_string` after the
IPv4-suffix conversion: at most 9 parts, at most one empty interior part
(the `::`), an empty endpoint only next to the `::`, fewer than 8 explicit
hextets when a `::` is present, exactly 8 (all non-empty) otherwise. -/
def validIPv6Parts (parts : List (List Char)) : Bool :=
  let n := parts.length
  if decide (9 < n) then false
  else
    let interior := (parts.drop 1).take (n - 2)
    let empties := interior.countP List.isEmpty
    if decide (2 ≤ empties) then false
    else if empties == 1 then
      let k := 1 + interior.findIdx List.isEmpty
      let headE := parts.head? == some ([] : List Char)
      let lastE := parts.getLast? == some ([] : List Char)
      if headE && !(k == 1) then false
      else
        let partsHi := if headE then k - 1 else k
        let partsLo0 := n - k - 1
        if lastE && !(partsLo0 == 1) then false
        else
          let partsLo := if lastE then partsLo0 - 1 else partsLo0
          if decide (8 ≤ partsHi + partsLo) then false
          else
            (parts.take partsHi).all validHextet &&
            (parts.drop (n - partsLo)).all validHextet
    else
      n == 8 && !(parts.head? == some ([] : List Char)) &&
      !(parts.getLast? == some ([] : List Char)) && parts.all validHextet

/-- `IPv6Address._ip_int_from_string` accepts the (scope-free) string:
non-empty, at least three `:`-parts, an IPv4-style last part converted to
two synthesized hextets (their hex digits always form valid hextets, so
only their presence matters for validity), then the structural check. -/
def validIPv6NoScope (s : List Char) : Bool :=
  if s.isEmpty then false
  else
    let parts := splitOnChar ':' s
    if decide (parts.length < 3) then false
    else
      let lastP := parts.getLast?.getD []
      if lastP.contains '.' then
        validIPv4 lastP && validIPv6Parts (parts.dropLast ++ [['0'], ['0']])
      else validIPv6Parts parts

/-- `ipaddress.IPv6Address` accepts the string: no `/`, an optional
`%scope` suffix (non-empty, no further `%`), and a valid scope-free
address (`_split_scope_id` then `_ip_int_from_string`). -/
def validIPv6 (s : List Char) : Bool :=
  !s.contains '/' &&
    (if s.contains '%' then
      !((s.dropWhile (· != '%')).tail).isEmpty &&
      !((s.dropWhile (· != '%')).tail).contains '%' &&
      validIPv6NoScope (s.takeWhile (· != '%'))
    else validIPv6NoScope s)

/-- The IPvFuture shape `re.match(r"\Av[a-fA-F0-9]+\..+\Z", hostname)`:
`v`, one or more hex digits, a dot, then at least one more character (`.`
does not match a newline; newlines cannot actually reach a netloc, they
are removed with the other unsafe bytes). -/
def ipvFutureOk (hostname : List Char) : Bool :=
  match hostname with
  | 'v' :: rest =>
    !(rest.takeWhile isHexDig).isEmpty &&
    (rest.dropWhile isHexDig).head? == some '.' &&
    !((rest.dropWhile isHexDig).tail).isEmpty &&
    !((rest.dropWhile isHexDig).tail).contains '\n'
  | _ => false

/-- Lowercase hex digit of a value below 16 (CPython's `\xHH` escapes). -/
def hexDigitChar (n : Nat) : Char :=
  if n < 10 then Char.ofNat (48 + n) else Char.ofNat (87 + n)

/-- One character of `repr` of a string under quote character `q`:
backslashes and the quote are escaped, ASCII control characters become
`\t`/`\r`/`\n`/`\xHH`, everything else prints as itself (exact for ASCII;
non-ASCII unprintables are outside the modelled fragment). -/
def reprEscape (q c : Char) : List Char :=
  if c = '\\' then ['\\', '\\']
  else if c = q then ['\\', q]
  else if c = '\t' then ['\\', 't']
  else if c = '\n' then ['\\', 'n']
  else if c = '\r' then ['\\', 'r']
  else if c.toNat < 32 || c.toNat == 127 then
    ['\\', 'x', hexDigitChar (c.toNat / 16), hexDigitChar (c.toNat % 16)]
  else [c]

/-- `repr` of a Python string: single quotes, or double quotes when the
string contains a single quote but no double quote. -/
def pyRepr (s : List Char) : List Char :=
  let q := if Char.ofNat 39 ∈ s ∧ Char.ofNat 34 ∉ s then Char.ofNat 34
           else Char.ofNat 39
  q :: (s.map (reprEscape q)).flatten ++ [q]

/-- The message of `ValueError(f'{address!r} does not appear to be an IPv4
or IPv6 address')` raised by `ipaddress.ip_address`. -/
def notIpMsg (hostname : List Char) : String :=
  String.mk (pyRepr hostname ++ lit " does not appear to be an IPv4 or IPv6 address")

/-- `urllib.parse._check_bracketed_host`, as the `ValueError` message it
raises (`none` when the bracketed host is accepted): an IPvFuture check
for hosts starting with `v`, otherwise `ipaddress.ip_address` — a valid
IPv4 address is rejected as bracketed, a valid IPv6 address accepted, and
anything else raises the not-an-IP-address error. -/
def check_bracketed_host (hostname : List Char) : Option String :=
  if hostname.head? = some 'v' then
    if ipvFutureOk hostname then none else some "IPvFuture address is invalid"
  else if validIPv4 hostname then some "An IPv4 address cannot be in brackets"
  else if validIPv6 hostname then none
  else some (notIpMsg hostname)

/-- `netloc.partition('[')[2].partition(']')[0]`: the text after the first
`[` and before the following `]`, the bracketed host candidate. -/
def bracketedHost (netloc : List Char) : List Char :=
  ((netloc.dropWhile (· != '[')).tail).takeWhile (· != ']')

/-- The bracketed-host step of `urlsplit`: when both brackets occur in the
netloc (after the balance check), run `_check_bracketed_host` on the
extracted candidate. -/
def bracketCheckErr (netloc : List Char) : Option String :=
  if '[' ∈ netloc ∧ ']' ∈ netloc then check_bracketed_host (bracketedHost netloc)
  else none

/-- `urllib.parse.urlsplit`.  The modelled failures are the netloc
validations: "Invalid IPv6 URL" for an unbalanced bracket and the
`_check_bracketed_host` errors for an invalid bracketed host.
`_checknetloc` returns immediately for empty or ASCII netlocs and is
modelled as that early return (its NFKC comparison for non-ASCII netlocs
needs the Unicode database and is outside the modelled fragment). -/
def urlsplits (url0 : List Char) : Except String SplitResult :=
  let url1 := urlClean url0
  let s := splitScheme url1
  if s.2.take 2 = lit "//" then
    let n := splitNetloc (s.2.drop 2)
    if ('[' ∈ n.1 ∧ ']' ∉ n.1) ∨ (']' ∈ n.1 ∧ '[' ∉ n.1) then
      .error "Invalid IPv6 URL"
    else
      match bracketCheckErr n.1 with
      | some e => .error e
      | none =>
        let f := splitFragment n.2
        let q := splitQuery f.1
        .ok ⟨s.1, n.1, q.1, q.2, f.2⟩
  else
    let f := splitFragment s.2
    let q := splitQuery f.1
    .ok ⟨s.1, [], q.1, q.2, f.2⟩

/-- Schemes for which urlparse splits `;params` off the path
(`uses_params`; note `ssh` is not among them). -/
def usesParams : List (List Char) :=
  [lit "", lit "ftp", lit "hdl", lit "prospero", lit "http", lit "imap",
   lit "https", lit "shttp", lit "rtsp", lit "rtspu", lit "sip", lit "sips",
   lit "mms", lit "sftp", lit "tel"]

/-- `_splitparams` (only reached when `';' ∈ url`): with a `/` present, the
`;` is searched only in the last path segment. -/
def splitParams (url : List Char) : List Char × List Char :=
  if '/' ∈ url then
    let b := (url.reverse.takeWhile (· != '/')).reverse
    if ';' ∈ b then
      (url.take (url.length - b.length) ++ b.takeWhile (· != ';'),
       (b.dropWhile (· != ';')).tail)
    else (url, [])
  else (url.takeWhile (· != ';'), (url.dropWhile (· != ';')).tail)

/-- `urllib.parse.urlparse` restricted to the fields the source reads. -/
def pyUrlparse (u : List Char) : Except String SplitResult := do
  let r ← urlsplits u
  if r.scheme ∈ usesParams ∧ ';' ∈ r.path then
    pure { r with path := (splitParams r.path).1 }
  else
    pure r

/-- Lowercase a hostname, preserving a `%zone` part (scoped IPv6). -/
def lowerHost (h : List Char) : List Char :=
  (h.takeWhile (· != '%')).map Char.toLower ++ h.dropWhile (· != '%')

/-- The `hostname` property of a parse result: part of the netloc after the
last `@`, then before `:` (or inside `[...]`), lowercased; `none` if empty. -/
def pyHostname (netloc : List Char) : Option (List Char) :=
  let hostinfo := (netloc.reverse.takeWhile (· != '@')).reverse
  let host :=
    if '[' ∈ hostinfo then
      ((hostinfo.dropWhile (· != '[')).tail).takeWhile (· != ']')
    else hostinfo.takeWhile (· != ':')
  if host = [] then none else some (lowerHost host)

/-! ## src/url_utils.py -/

/-- `strip_git_suffix`: remove one literal trailing `.git` if present. -/
def strip_git_suffix (url : List Char) : List Char :=
  if endsWithL (lit ".git") url then url.take (url.length - 4) else url

/-- `ensure_git_suffix`: strip one trailing `.git`, then append `.git`. -/
def ensure_git_suffix (url : List Char) : List Char :=
  strip_git_suffix url ++ lit ".git"

/-- `is_ssh_url`: `git@` prefix, or parses with scheme `ssh`. -/
def is_ssh_url (repo_url : List Char) : Except String Bool :=
  if startsWithL (lit "git@") repo_url then pure true
  else do
    let parsed ← pyUrlparse repo_url
    pure (decide (parsed.scheme = lit "ssh"))

/-- `to_ssh_url`: convert a repo reference to `git@host:owner/repo.git`. -/
def to_ssh_url (repo_url : List Char) : Except String (List Char) := do
  let b ← is_ssh_url repo_url
  if b then
    if startsWithL (lit "git@") repo_url then
      pure (ensure_git_suffix repo_url)
    else do
      let parsed ← pyUrlparse repo_url
      let host := (pyHostname parsed.netloc).getD parsed.netloc
      let owner_repo := strip_git_suffix (pyLstrip (· == '/') parsed.path)
      pure (lit "git@" ++ host ++ lit ":" ++ owner_repo ++ lit ".git")
  else do
    let parsed ← pyUrlparse repo_url
    if parsed.netloc ≠ [] ∧ parsed.path ≠ [] then
      pure (lit "git@" ++ parsed.netloc ++ lit ":" ++
            strip_git_suffix (pyLstrip (· == '/') parsed.path) ++ lit ".git")
    else
      let owner_repo :=
        strip_git_suffix (pyLstrip (· == '/') (pyStrip isPySpace repo_url))
      if '/' ∈ owner_repo then
        pure (lit "git@github.com:" ++ owner_repo ++ lit ".git")
      else
        pure (ensure_git_suffix repo_url)

/-- `to_https_url`: convert a repo reference to `https://host/owner/repo.git`. -/
def to_https_url (repo_url : List Char) : Except String (List Char) := do
  let b ← is_ssh_url repo_url
  if b = false then do
    let parsed ← pyUrlparse repo_url
    if parsed.netloc ≠ [] ∧ (parsed.scheme = lit "http" ∨ parsed.scheme = lit "https") then
      pure (ensure_git_suffix repo_url)
    else
      let owner_repo :=
        strip_git_suffix (pyLstrip (· == '/') (pyStrip isPySpace repo_url))
      if '/' ∈ owner_repo then
        pure (lit "https://github.com/" ++ owner_repo ++ lit ".git")
      else
        pure (ensure_git_suffix repo_url)
  else
    if startsWithL (lit "git@") repo_url then
      match splitFirst ':' repo_url with
      | some hp =>
        pure (lit "https://" ++ replaceList (lit "git@") [] hp.1 ++ lit "/" ++
              strip_git_suffix hp.2 ++ lit ".git")
      | none => pure (ensure_git_suffix repo_url)
    else do
      let parsed ← pyUrlparse repo_url
      if parsed.netloc ≠ [] ∧ parsed.path ≠ [] then
        let host := (pyHostname parsed.netloc).getD parsed.netloc
        pure (lit "https://" ++ host ++ lit "/" ++
              strip_git_suffix (pyLstrip (· == '/') parsed.path) ++ lit ".git")
      else
        pure (ensure_git_suffix repo_url)

/-- `x or None` on a possibly-empty string. -/
def noneIfEmpty (l : List Char) : Option (List Char) :=
  if l = [] then none else some l

/-- `https_repo_full_name`: `owner/repo` for any supported input. -/
def https_repo_full_name (repo_url : List Char) :
    Except String (Option (List Char)) :=
  let u := pyStrip isPySpace repo_url
  if startsWithL (lit "git@") u then
    match splitFirst ':' u with
    | some hp => pure (noneIfEmpty (pyStrip (· == '/') (strip_git_suffix hp.2)))
    | none => pure none
  else do
    let parsed ← pyUrlparse u
    if parsed.netloc ≠ [] ∧ parsed.path ≠ [] then
      pure (noneIfEmpty (strip_git_suffix (pyStrip (· == '/') parsed.path)))
    else
      pure (noneIfEmpty (strip_git_suffix (pyStrip (· == '/') u)))

/-! ## src/api.py (pure helpers) -/

/-- `GithubApi.sanitize_repo_name`: strip whitespace, spaces to dashes. -/
def sanitize_repo_name (name : List Char) : List Char :=
  replaceList (lit " ") (lit "-") (pyStrip isPySpace name)

/-- `GithubApi.build_repo_url`: canonical https URL from owner and name;
raises ValueError when owner or the sanitized name is empty. -/
def build_repo_url (owner name : List Char) : Except String (List Char) :=
  let s := sanitize_repo_name name
  if owner = [] ∨ s = [] then
    .error "owner and name must be non-empty to build repo URL"
  else
    .ok (lit "https://github.com/" ++ owner ++ lit "/" ++ s ++ lit ".git")

deriving instance DecidableEq for Except

/-- The bare-branch core of `to_ssh_url`/`to_https_url`. -/
def bareCore (x : List Char) : List Char :=
  strip_git_suffix (pyLstrip (· == '/') (pyStrip isPySpace x))

/-- A conservative "plain" character set for owners, names and hosts:
ASCII letters, digits, `-`, `_`, `.`. -/
def SafeChar (c : Char) : Prop :=
  (65 ≤ c.toNat ∧ c.toNat ≤ 90) ∨ (97 ≤ c.toNat ∧ c.toNat ≤ 122) ∨
  (48 ≤ c.toNat ∧ c.toNat ≤ 57) ∨ c = '-' ∨ c = '_' ∨ c = '.'

instance (c : Char) : Decidable (SafeChar c) := by
  unfold SafeChar; infer_instance

/-- Every character of the string is a `SafeChar`. -/
def SafeStr (l : List Char) : Prop := ∀ c ∈ l, SafeChar c

instance (l : List Char) : Decidable (SafeStr l) := by
  unfold SafeStr; infer_instance

/-- Every character is a `SafeChar` or a slash (for multi-segment paths). -/
def SafeSlashStr (l : List Char) : Prop := ∀ c ∈ l, SafeChar c ∨ c = '/'

instance (l : List Char) : Decidable (SafeSlashStr l) := by
  unfold SafeSlashStr; infer_instance

/-- The string is already lowercase (fixed by `Char.toLower`). -/
def LowerStr (l : List Char) : Prop := ∀ c ∈ l, c.toLower = c

instance (l : List Char) : Decidable (LowerStr l) := by
  unfold LowerStr; infer_instance

/-- Characters that urlsplit's input cleaning leaves alone. -/
def CleanChar (c : Char) : Prop :=
  isC0OrSpace c = false ∧ isUnsafeUrlByte c = false

instance (c : Char) : Decidable (CleanChar c) := by
  unfold CleanChar; infer_instance

/-! ## Basic facts about the string helpers -/

theorem bind_ok_eq {α β : Type} (a : α) (f : α → Except String β) :
    (Except.ok a >>= f) = f a := rfl

theorem all_bne_of_not_mem {ch : Char} {l : List Char} (h : ch ∉ l) :
    ∀ c ∈ l, (c != ch) = true := fun c hc => by
  simp only [bne_iff_ne, ne_eq]
  rintro rfl
  exact h hc

theorem takeWhile_of_not_mem {ch : Char} {l : List Char} (h : ch ∉ l) :
    l.takeWhile (· != ch) = l :=
  List.takeWhile_eq_self_iff.mpr (all_bne_of_not_mem h)

theorem dropWhile_of_not_mem {ch : Char} {l : List Char} (h : ch ∉ l) :
    l.dropWhile (· != ch) = [] :=
  List.dropWhile_eq_nil_iff.mpr (all_bne_of_not_mem h)

theorem takeWhile_append_cons {ch : Char} {A B : List Char} (hA : ch ∉ A) :
    (A ++ ch :: B).takeWhile (· != ch) = A := by
  rw [List.takeWhile_append_of_pos (all_bne_of_not_mem hA),
      List.takeWhile_cons_of_neg (by simp), List.append_nil]

theorem dropWhile_append_cons {ch : Char} {A B : List Char} (hA : ch ∉ A) :
    (A ++ ch :: B).dropWhile (· != ch) = ch :: B := by
  rw [List.dropWhile_append_of_pos (all_bne_of_not_mem hA),
      List.dropWhile_cons_of_neg (by simp)]

theorem splitFirst_of_not_mem {ch : Char} {l : List Char} (h : ch ∉ l) :
    splitFirst ch l = none := by
  simp [splitFirst, h]

theorem splitFirst_append_cons {ch : Char} {A B : List Char} (hA : ch ∉ A) :
    splitFirst ch (A ++ ch :: B) = some (A, B) := by
  unfold splitFirst
  rw [if_pos (by simp), takeWhile_append_cons hA, dropWhile_append_cons hA]
  rfl

theorem pyLstrip_of_none {p : Char → Bool} {l : List Char}
    (h : ∀ c ∈ l, p c = false) : pyLstrip p l = l := by
  cases l with
  | nil => rfl
  | cons c t =>
    exact List.dropWhile_cons_of_neg (by simp [h c (List.mem_cons_self c t)])

theorem pyRstrip_of_none {p : Char → Bool} {l : List Char}
    (h : ∀ c ∈ l, p c = false) : pyRstrip p l = l := by
  unfold pyRstrip
  have hd : l.reverse.dropWhile p = l.reverse :=
    pyLstrip_of_none (fun c hc => h c (List.mem_reverse.mp hc))
  rw [hd, List.reverse_reverse]

theorem pyStrip_of_none {p : Char → Bool} {l : List Char}
    (h : ∀ c ∈ l, p c = false) : pyStrip p l = l := by
  unfold pyStrip
  rw [pyLstrip_of_none h, pyRstrip_of_none h]

theorem pyLstrip_head {p : Char → Bool} {l : List Char} {c : Char}
    (h : (pyLstrip p l).head? = some c) : p c = false := by
  unfold pyLstrip at h
  have hne : l.dropWhile p ≠ [] := by
    intro h0
    rw [h0] at h
    exact Option.noConfusion h
  have hp := List.head_dropWhile_not p l hne
  rw [List.head?_eq_head hne, Option.some.injEq] at h
  rw [← h]
  exact hp

theorem pyLstrip_idem (p : Char → Bool) (l : List Char) :
    pyLstrip p (pyLstrip p l) = pyLstrip p l := by
  cases hd : pyLstrip p l with
  | nil => rfl
  | cons c t =>
    have hc : p c = false := pyLstrip_head (by rw [hd]; rfl)
    unfold pyLstrip
    exact List.dropWhile_cons_of_neg (by simp [hc])

theorem pyRstrip_idem (p : Char → Bool) (l : List Char) :
    pyRstrip p (pyRstrip p l) = pyRstrip p l := by
  unfold pyRstrip
  rw [List.reverse_reverse]
  exact congrArg List.reverse (pyLstrip_idem p l.reverse)

theorem pyRstrip_isPrefix (p : Char → Bool) (l : List Char) :
    pyRstrip p l <+: l := by
  have h : (pyRstrip p l).reverse <:+ l.reverse := by
    unfold pyRstrip
    rw [List.reverse_reverse]
    exact List.dropWhile_suffix p
  exact List.reverse_suffix.mp (by simpa using h)

theorem pyStrip_idem (p : Char → Bool) (l : List Char) :
    pyStrip p (pyStrip p l) = pyStrip p l := by
  unfold pyStrip
  have hls : pyLstrip p (pyRstrip p (pyLstrip p l)) = pyRstrip p (pyLstrip p l) := by
    rcases pyRstrip_isPrefix p (pyLstrip p l) with ⟨u, hu⟩
    cases hs : pyRstrip p (pyLstrip p l) with
    | nil => rfl
    | cons c t =>
      have hhead : (pyLstrip p l).head? = some c := by
        rw [← hu, hs, List.cons_append, List.head?_cons]
      have hc : p c = false := pyLstrip_head hhead
      exact List.dropWhile_cons_of_neg (by simp [hc])
  rw [hls, pyRstrip_idem]

/-! Facts about the `.git` suffix helpers. -/

theorem lit_git_length : (lit ".git").length = 4 := rfl

theorem endsWithL_append (p A : List Char) : endsWithL p (A ++ p) := by
  unfold endsWithL
  rw [List.length_append, Nat.add_sub_cancel, List.drop_left]

theorem endsWithL_iff {p l : List Char} : endsWithL p l ↔ ∃ A, l = A ++ p := by
  constructor
  · intro h
    refine ⟨l.take (l.length - p.length), ?_⟩
    conv_lhs => rw [← List.take_append_drop (l.length - p.length) l]
    rw [h]
  · rintro ⟨A, rfl⟩
    exact endsWithL_append p A

theorem strip_git_append (A : List Char) :
    strip_git_suffix (A ++ lit ".git") = A := by
  unfold strip_git_suffix
  rw [if_pos (endsWithL_append _ _), List.length_append, lit_git_length,
      Nat.add_sub_cancel, List.take_left]

theorem strip_git_of_not {l : List Char} (h : ¬ endsWithL (lit ".git") l) :
    strip_git_suffix l = l := if_neg h

theorem strip_git_ensure (x : List Char) :
    strip_git_suffix (ensure_git_suffix x) = strip_git_suffix x := by
  unfold ensure_git_suffix
  exact strip_git_append _

theorem ensure_endsWith (x : List Char) :
    endsWithL (lit ".git") (ensure_git_suffix x) :=
  endsWithL_append _ _

theorem ensure_of_endsWith {y : List Char} (h : endsWithL (lit ".git") y) :
    ensure_git_suffix y = y := by
  rcases endsWithL_iff.mp h with ⟨A, rfl⟩
  unfold ensure_git_suffix
  rw [strip_git_append]

theorem ensure_idem (x : List Char) :
    ensure_git_suffix (ensure_git_suffix x) = ensure_git_suffix x :=
  ensure_of_endsWith (ensure_endsWith x)

theorem startsWithL_of_append (p t : List Char) : startsWithL p (p ++ t) := by
  unfold startsWithL
  exact List.take_left p t

theorem mem_of_startsWithL {p l : List Char} (h : startsWithL p l) :
    ∀ c ∈ p, c ∈ l := by
  intro c hc
  unfold startsWithL at h
  rw [← h] at hc
  exact List.take_subset _ _ hc

/-! ## Safe characters and parsing of well-formed references -/

theorem SafeChar.ne_of_not {c d : Char} (h : SafeChar c) (hd : ¬ SafeChar d) :
    c ≠ d := fun he => hd (he ▸ h)

theorem SafeStr.not_mem {l : List Char} (hs : SafeStr l) {d : Char}
    (hd : ¬ SafeChar d) : d ∉ l := fun hm => hd (hs d hm)

theorem SafeSlashStr.notMem {l : List Char} (hs : SafeSlashStr l) {d : Char}
    (hd : ¬ SafeChar d) (hd2 : d ≠ '/') : d ∉ l := fun hm => by
  rcases hs d hm with h | h
  exacts [hd h, hd2 h]

theorem SafeChar.not_c0 {c : Char} (h : SafeChar c) : isC0OrSpace c = false := by
  simp only [isC0OrSpace, decide_eq_false_iff_not]
  rcases h with ⟨h1, _⟩ | ⟨h1, _⟩ | ⟨h1, _⟩ | rfl | rfl | rfl <;>
    first | omega | decide

theorem SafeChar.not_unsafe {c : Char} (h : SafeChar c) :
    isUnsafeUrlByte c = false := by
  have h1 : c ≠ '\t' := h.ne_of_not (by decide)
  have h2 : c ≠ '\r' := h.ne_of_not (by decide)
  have h3 : c ≠ '\n' := h.ne_of_not (by decide)
  simp [isUnsafeUrlByte, h1, h2, h3]

theorem SafeChar.not_space {c : Char} (h : SafeChar c) : isPySpace c = false := by
  have h1 : c ≠ ' ' := h.ne_of_not (by decide)
  have h2 : c ≠ '\t' := h.ne_of_not (by decide)
  have h3 : c ≠ '\n' := h.ne_of_not (by decide)
  have h4 : c ≠ '\r' := h.ne_of_not (by decide)
  have h5 : c.toNat ≠ 11 ∧ c.toNat ≠ 12 := by
    rcases h with ⟨hr, _⟩ | ⟨hr, _⟩ | ⟨hr, _⟩ | rfl | rfl | rfl <;>
      first | omega | decide
  simp [isPySpace, h1, h2, h3, h4, h5.1, h5.2]

theorem SafeChar.not_delim {c : Char} (h : SafeChar c) :
    isNetlocDelim c = false := by
  have h1 : c ≠ '/' := h.ne_of_not (by decide)
  have h2 : c ≠ '?' := h.ne_of_not (by decide)
  have h3 : c ≠ '#' := h.ne_of_not (by decide)
  simp [isNetlocDelim, h1, h2, h3]

theorem all_append {P : Char → Prop} {A B : List Char}
    (hA : ∀ c ∈ A, P c) (hB : ∀ c ∈ B, P c) : ∀ c ∈ A ++ B, P c :=
  fun c hc => (List.mem_append.mp hc).elim (hA c) (hB c)

theorem all_cons {P : Char → Prop} {d : Char} {A : List Char}
    (hd : P d) (hA : ∀ c ∈ A, P c) : ∀ c ∈ d :: A, P c := fun c hc => by
  rcases List.mem_cons.mp hc with rfl | h
  exacts [hd, hA c h]

theorem urlClean_id {l : List Char}
    (h0 : ∀ c ∈ l, isC0OrSpace c = false)
    (h1 : ∀ c ∈ l, isUnsafeUrlByte c = false) : urlClean l = l := by
  unfold urlClean
  have hd : l.dropWhile isC0OrSpace = l := pyLstrip_of_none h0
  rw [hd, List.filter_eq_self.mpr (fun c hc => by simp [h1 c hc])]

theorem SafeChar.clean {c : Char} (h : SafeChar c) : CleanChar c :=
  ⟨h.not_c0, h.not_unsafe⟩

theorem urlClean_id_of {l : List Char} (h : ∀ c ∈ l, CleanChar c) :
    urlClean l = l :=
  urlClean_id (fun c hc => (h c hc).1) (fun c hc => (h c hc).2)

theorem splitScheme_no_colon {l : List Char} (h : ':' ∉ l) :
    splitScheme l = ([], l) := by
  unfold splitScheme
  rw [if_neg h]

theorem head?_append_cons {A B : List Char} (h : A ≠ []) :
    (A ++ B).head? = A.head? := by
  cases A with
  | nil => exact absurd rfl h
  | cons a t => simp

theorem splitScheme_prefix {s rest : List Char} (hne : s ≠ [])
    (hcolon : ':' ∉ s) (halpha : s.head?.any Char.isAlpha = true)
    (hall : s.all isSchemeChar = true) :
    splitScheme (s ++ ':' :: rest) = (s.map Char.toLower, rest) := by
  unfold splitScheme
  rw [if_pos (by simp), takeWhile_append_cons hcolon, dropWhile_append_cons hcolon,
      if_pos ⟨hne, by rwa [head?_append_cons hne], hall⟩]
  rfl

theorem splitNetloc_all {A : List Char} (hA : ∀ c ∈ A, isNetlocDelim c = false) :
    splitNetloc A = (A, []) := by
  unfold splitNetloc
  rw [List.takeWhile_eq_self_iff.mpr (fun c hc => by simp [hA c hc]),
      List.dropWhile_eq_nil_iff.mpr (fun c hc => by simp [hA c hc])]

theorem splitNetloc_append_delim {A B : List Char} {d : Char}
    (hA : ∀ c ∈ A, isNetlocDelim c = false) (hd : isNetlocDelim d = true) :
    splitNetloc (A ++ d :: B) = (A, d :: B) := by
  unfold splitNetloc
  rw [List.takeWhile_append_of_pos (fun c hc => by simp [hA c hc]),
      List.takeWhile_cons_of_neg (by simp [hd]), List.append_nil,
      List.dropWhile_append_of_pos (fun c hc => by simp [hA c hc]),
      List.dropWhile_cons_of_neg (by simp [hd])]

theorem splitFragment_no {l : List Char} (h : '#' ∉ l) :
    splitFragment l = (l, []) := by
  unfold splitFragment
  rw [if_neg h]

theorem splitQuery_no {l : List Char} (h : '?' ∉ l) :
    splitQuery l = (l, []) := by
  unfold splitQuery
  rw [if_neg h]

theorem bracketCheckErr_none {netloc : List Char} (h : '[' ∉ netloc) :
    bracketCheckErr netloc = none := by
  unfold bracketCheckErr
  rw [if_neg (fun hc => h hc.1)]

theorem urlsplits_auth {s netl rest2 : List Char}
    (hclean : urlClean (s ++ ':' :: '/' :: '/' :: (netl ++ rest2)) =
      s ++ ':' :: '/' :: '/' :: (netl ++ rest2))
    (hne : s ≠ []) (hcolon : ':' ∉ s) (halpha : s.head?.any Char.isAlpha = true)
    (hall : s.all isSchemeChar = true)
    (hnet : ∀ c ∈ netl, isNetlocDelim c = false)
    (hrest : rest2 = [] ∨ ∃ d B, rest2 = d :: B ∧ isNetlocDelim d = true)
    (hbr1 : '[' ∉ netl) (hbr2 : ']' ∉ netl)
    (hfrag : '#' ∉ rest2) (hq : '?' ∉ rest2) :
    urlsplits (s ++ ':' :: '/' :: '/' :: (netl ++ rest2)) =
      .ok ⟨s.map Char.toLower, netl, rest2, [], []⟩ := by
  have hsplit : splitNetloc (netl ++ rest2) = (netl, rest2) := by
    rcases hrest with rfl | ⟨d, B, rfl, hd⟩
    · rw [List.append_nil]
      exact splitNetloc_all hnet
    · exact splitNetloc_append_delim hnet hd
  simp only [urlsplits]
  rw [hclean, splitScheme_prefix hne hcolon halpha hall]
  have h2 : (('/' :: '/' :: (netl ++ rest2)).take 2 = lit "//") := rfl
  rw [if_pos h2]
  have hdrop : ('/' :: '/' :: (netl ++ rest2)).drop 2 = netl ++ rest2 := rfl
  rw [hdrop, hsplit]
  rw [if_neg (by simp [hbr1, hbr2])]
  rw [show bracketCheckErr (netl, rest2).1 = none from bracketCheckErr_none hbr1]
  rw [splitFragment_no hfrag, splitQuery_no hq]

theorem pyUrlparse_auth {s netl rest2 : List Char}
    (hclean : urlClean (s ++ ':' :: '/' :: '/' :: (netl ++ rest2)) =
      s ++ ':' :: '/' :: '/' :: (netl ++ rest2))
    (hne : s ≠ []) (hcolon : ':' ∉ s) (halpha : s.head?.any Char.isAlpha = true)
    (hall : s.all isSchemeChar = true)
    (hnet : ∀ c ∈ netl, isNetlocDelim c = false)
    (hrest : rest2 = [] ∨ ∃ d B, rest2 = d :: B ∧ isNetlocDelim d = true)
    (hbr1 : '[' ∉ netl) (hbr2 : ']' ∉ netl)
    (hfrag : '#' ∉ rest2) (hq : '?' ∉ rest2)
    (hparam : (s.map Char.toLower) ∉ usesParams ∨ ';' ∉ rest2) :
    pyUrlparse (s ++ ':' :: '/' :: '/' :: (netl ++ rest2)) =
      .ok ⟨s.map Char.toLower, netl, rest2, [], []⟩ := by
  unfold pyUrlparse
  rw [urlsplits_auth hclean hne hcolon halpha hall hnet hrest hbr1 hbr2 hfrag hq]
  rw [bind_ok_eq]
  rw [if_neg (fun hc => hparam.elim (fun h => h hc.1) (fun h => h hc.2))]
  rfl

theorem pyUrlparse_bare {l : List Char} (hclean : urlClean l = l)
    (hcolon : ':' ∉ l) (h2 : l.take 2 ≠ lit "//")
    (hfrag : '#' ∉ l) (hq : '?' ∉ l) (hsemi : ';' ∉ l) :
    pyUrlparse l = .ok ⟨[], [], l, [], []⟩ := by
  unfold pyUrlparse
  have hu : urlsplits l = .ok ⟨[], [], l, [], []⟩ := by
    simp only [urlsplits]
    rw [hclean, splitScheme_no_colon hcolon]
    rw [if_neg h2, splitFragment_no hfrag, splitQuery_no hq]
  rw [hu, bind_ok_eq]
  rw [if_neg (fun hc => hsemi hc.2)]
  rfl

theorem not_mem_append {d : Char} {A B : List Char} (hA : d ∉ A) (hB : d ∉ B) :
    d ∉ A ++ B := fun hm => (List.mem_append.mp hm).elim hA hB

theorem not_mem_cons {d e : Char} {A : List Char} (hne : d ≠ e) (hA : d ∉ A) :
    d ∉ e :: A := by
  simp only [List.mem_cons, not_or]
  exact ⟨hne, hA⟩

theorem take_two_ne_slashes {l : List Char} {c : Char} (hh : l.head? = some c)
    (hc : c ≠ '/') : l.take 2 ≠ lit "//" := by
  cases l with
  | nil => cases hh
  | cons a t =>
    have ha : a = c := by simpa using hh
    intro h
    apply hc
    have h2 : (a :: t.take 1) = '/' :: ['/'] := h
    rw [← ha]
    injection h2 with h3 h4

theorem mem_strip_git_of_ne {c : Char} {x : List Char} (hc : c ∈ x)
    (hg : c ∉ lit ".git") : c ∈ strip_git_suffix x := by
  by_cases he : endsWithL (lit ".git") x
  · rcases endsWithL_iff.mp he with ⟨A, rfl⟩
    rw [strip_git_append]
    rcases List.mem_append.mp hc with h | h
    · exact h
    · exact absurd h hg
  · rwa [strip_git_of_not he]

theorem mem_of_mem_strip_git {c : Char} {x : List Char}
    (hc : c ∈ strip_git_suffix x) : c ∈ x := by
  unfold strip_git_suffix at hc
  split at hc
  · exact List.take_subset _ _ hc
  · exact hc

theorem pyLstrip_of_head {p : Char → Bool} {l : List Char}
    (h : ∀ c, l.head? = some c → p c = false) : pyLstrip p l = l := by
  cases l with
  | nil => rfl
  | cons c t => exact List.dropWhile_cons_of_neg (by simp [h c rfl])

theorem pyRstrip_of_rev_head {p : Char → Bool} {l : List Char}
    (h : ∀ c, l.reverse.head? = some c → p c = false) : pyRstrip p l = l := by
  unfold pyRstrip
  cases hr : l.reverse with
  | nil =>
    have : l = [] := by simpa using congrArg List.reverse hr
    simp [this]
  | cons a t =>
    rw [List.dropWhile_cons_of_neg (by simp [h a (by rw [hr]; rfl)]), ← hr,
        List.reverse_reverse]

theorem pyStrip_no_edge {p : Char → Bool} {l : List Char}
    (h1 : ∀ c, l.head? = some c → p c = false)
    (h2 : ∀ c, l.reverse.head? = some c → p c = false) : pyStrip p l = l := by
  unfold pyStrip
  rw [pyLstrip_of_head h1, pyRstrip_of_rev_head h2]

theorem startsWith_of_take {P R : List Char} (hlen : 4 ≤ P.length)
    (he : P.take 4 = lit "git@") : startsWithL (lit "git@") (P ++ R) := by
  unfold startsWithL
  rw [show (lit "git@").length = 4 from rfl, List.take_append_of_le_length hlen, he]

theorem not_startsWith_of_take {P R : List Char} (hlen : 4 ≤ P.length)
    (he : P.take 4 ≠ lit "git@") : ¬ startsWithL (lit "git@") (P ++ R) := by
  unfold startsWithL
  rw [show (lit "git@").length = 4 from rfl, List.take_append_of_le_length hlen]
  exact he

theorem not_startsWith_git_of_no_at {x : List Char} (h : '@' ∉ x) :
    ¬ startsWithL (lit "git@") x :=
  fun hs => h (mem_of_startsWithL hs '@' (by decide))

theorem SafeSlashChar.cleanOf {c : Char} (h : SafeChar c ∨ c = '/') : CleanChar c := by
  rcases h with h | rfl
  · exact h.clean
  · exact ⟨by decide, by decide⟩

theorem SafeChar.not_slash_bool {c : Char} (h : SafeChar c) : (c == '/') = false := by
  simp [h.ne_of_not (show ¬ SafeChar '/' by decide)]

theorem SafeStr.clean_all {l : List Char} (hs : SafeStr l) :
    ∀ c ∈ l, CleanChar c := fun c hc => (hs c hc).clean

theorem SafeSlashStr.cleanAll {l : List Char} (hs : SafeSlashStr l) :
    ∀ c ∈ l, CleanChar c := fun c hc => SafeSlashChar.cleanOf (hs c hc)

theorem SafeStr.no_space {l : List Char} (hs : SafeStr l) :
    ∀ c ∈ l, isPySpace c = false := fun c hc => (hs c hc).not_space

theorem SafeSlashStr.noSpace {l : List Char} (hs : SafeSlashStr l) :
    ∀ c ∈ l, isPySpace c = false := fun c hc => by
  rcases hs c hc with h | rfl
  · exact h.not_space
  · decide

/-- Parse of a bare safe `owner/name` reference: no scheme, no netloc. -/
theorem pyUrlparse_bare_safe {o n : List Char} (hso : SafeStr o) (ho : o ≠ [])
    (hsn : SafeStr n) :
    pyUrlparse (o ++ '/' :: n) = .ok ⟨[], [], o ++ '/' :: n, [], []⟩ := by
  obtain ⟨c, o', rfl⟩ : ∃ c o', o = c :: o' := by
    cases o with
    | nil => exact absurd rfl ho
    | cons c o' => exact ⟨c, o', rfl⟩
  have hc : SafeChar c := hso c (List.mem_cons_self ..)
  apply pyUrlparse_bare
  · exact urlClean_id_of (all_append hso.clean_all (all_cons (by decide) hsn.clean_all))
  · exact not_mem_append (hso.not_mem (by decide))
      (not_mem_cons (by decide) (hsn.not_mem (by decide)))
  · exact take_two_ne_slashes (by rfl) (hc.ne_of_not (by decide))
  · exact not_mem_append (hso.not_mem (by decide))
      (not_mem_cons (by decide) (hsn.not_mem (by decide)))
  · exact not_mem_append (hso.not_mem (by decide))
      (not_mem_cons (by decide) (hsn.not_mem (by decide)))
  · exact not_mem_append (hso.not_mem (by decide))
      (not_mem_cons (by decide) (hsn.not_mem (by decide)))

theorem lowerHost_of_no_percent {h : List Char} (hp : '%' ∉ h) :
    lowerHost h = h.map Char.toLower := by
  unfold lowerHost
  rw [takeWhile_of_not_mem hp, dropWhile_of_not_mem hp, List.append_nil]

theorem map_toLower_of_lower {h : List Char} (hl : LowerStr h) :
    h.map Char.toLower = h :=
  (List.map_congr_left hl).trans (List.map_id h)

theorem pyHostname_plain {h : List Char} (hat : '@' ∉ h) (hbr : '[' ∉ h)
    (hcolon : ':' ∉ h) (hpc : '%' ∉ h) (hne : h ≠ []) :
    pyHostname h = some (h.map Char.toLower) := by
  unfold pyHostname
  have hrev : (h.reverse.takeWhile (· != '@')).reverse = h := by
    rw [takeWhile_of_not_mem (fun hm => hat (List.mem_reverse.mp hm)),
        List.reverse_reverse]
  rw [hrev]
  simp only [if_neg hbr, takeWhile_of_not_mem hcolon, if_neg hne,
      lowerHost_of_no_percent hpc]

theorem pyHostname_git_at {h : List Char} (hat : '@' ∉ h) (hbr : '[' ∉ h)
    (hcolon : ':' ∉ h) (hpc : '%' ∉ h) (hne : h ≠ []) :
    pyHostname (lit "git@" ++ h) = some (h.map Char.toLower) := by
  unfold pyHostname
  have hsh : (lit "git@" ++ h).reverse = h.reverse ++ '@' :: lit "tig" := by
    rw [List.reverse_append]
    rfl
  have hrev : ((lit "git@" ++ h).reverse.takeWhile (· != '@')).reverse = h := by
    rw [hsh, takeWhile_append_cons (fun hm => hat (List.mem_reverse.mp hm)),
        List.reverse_reverse]
  rw [hrev]
  simp only [if_neg hbr, takeWhile_of_not_mem hcolon, if_neg hne,
      lowerHost_of_no_percent hpc]

theorem SafeStr.hostname_self {h : List Char} (hs : SafeStr h) (hl : LowerStr h)
    (hne : h ≠ []) : pyHostname h = some h := by
  rw [pyHostname_plain (hs.not_mem (by decide)) (hs.not_mem (by decide))
      (hs.not_mem (by decide)) (hs.not_mem (by decide)) hne,
      map_toLower_of_lower hl]

theorem replaceFuel_no_at {new s : List Char} (hs : '@' ∉ s) :
    ∀ fuel, replaceFuel (lit "git@") new fuel s = s := by
  intro fuel
  induction fuel generalizing s with
  | zero => rfl
  | succ k ih =>
    cases s with
    | nil => rfl
    | cons c rest =>
      rw [replaceFuel, if_neg, ih (fun hm => hs (List.mem_cons_of_mem c hm))]
      rintro ⟨-, htake⟩
      apply hs
      have : '@' ∈ (c :: rest).take (lit "git@").length := by
        rw [htake]; decide
      exact List.take_subset _ _ this

theorem replaceFuel_git_prefix {h : List Char} (hat : '@' ∉ h) (k : Nat) :
    replaceFuel (lit "git@") [] (k + 1) ('g' :: 'i' :: 't' :: '@' :: h) = h := by
  rw [replaceFuel, if_pos ⟨by decide, rfl⟩]
  have hd : ('g' :: 'i' :: 't' :: '@' :: h).drop (lit "git@").length = h := rfl
  rw [hd, replaceFuel_no_at hat, List.nil_append]

theorem replaceList_git_prefix {h : List Char} (hat : '@' ∉ h) :
    replaceList (lit "git@") [] (lit "git@" ++ h) = h := by
  unfold replaceList
  have hshape : lit "git@" ++ h = 'g' :: 'i' :: 't' :: '@' :: h := rfl
  rw [hshape, show ('g' :: 'i' :: 't' :: '@' :: h).length = h.length + 3 + 1 from by
    simp [List.length_cons]]
  exact replaceFuel_git_prefix hat _

/-- Parse of `https://<host>/<path>` with a safe host and slash-safe path. -/
theorem pyUrlparse_https_host {host pth : List Char} (hs : SafeStr host)
    (hp : SafeSlashStr pth) :
    pyUrlparse (lit "https://" ++ host ++ '/' :: pth) =
      .ok ⟨lit "https", host, '/' :: pth, [], []⟩ := by
  have hshape : lit "https://" ++ host ++ '/' :: pth =
      lit "https" ++ ':' :: '/' :: '/' :: (host ++ '/' :: pth) := by
    rw [List.append_assoc]
    rfl
  rw [hshape]
  exact pyUrlparse_auth
    (urlClean_id_of (all_append (by decide)
      (all_cons (by decide) (all_cons (by decide) (all_cons (by decide)
        (all_append hs.clean_all (all_cons (by decide) hp.cleanAll)))))))
    (by decide) (by decide) (by decide) (by decide)
    (fun c hc => (hs c hc).not_delim)
    (.inr ⟨'/', pth, rfl, by decide⟩)
    (hs.not_mem (by decide)) (hs.not_mem (by decide))
    (not_mem_cons (by decide) (hp.notMem (by decide) (by decide)))
    (not_mem_cons (by decide) (hp.notMem (by decide) (by decide)))
    (.inr (not_mem_cons (by decide) (hp.notMem (by decide) (by decide))))

/-- Parse of `ssh://<netloc>/<path>` with a clean, delimiter-free netloc. -/
theorem pyUrlparse_ssh_netloc {netl pth : List Char}
    (hclean : ∀ c ∈ netl, CleanChar c)
    (hdelim : ∀ c ∈ netl, isNetlocDelim c = false)
    (hbr1 : '[' ∉ netl) (hbr2 : ']' ∉ netl)
    (hp : SafeSlashStr pth) :
    pyUrlparse (lit "ssh://" ++ netl ++ '/' :: pth) =
      .ok ⟨lit "ssh", netl, '/' :: pth, [], []⟩ := by
  have hshape : lit "ssh://" ++ netl ++ '/' :: pth =
      lit "ssh" ++ ':' :: '/' :: '/' :: (netl ++ '/' :: pth) := by
    rw [List.append_assoc]
    rfl
  rw [hshape]
  exact pyUrlparse_auth
    (urlClean_id_of (all_append (by decide)
      (all_cons (by decide) (all_cons (by decide) (all_cons (by decide)
        (all_append hclean (all_cons (by decide) hp.cleanAll)))))))
    (by decide) (by decide) (by decide) (by decide)
    hdelim
    (.inr ⟨'/', pth, rfl, by decide⟩)
    hbr1 hbr2
    (not_mem_cons (by decide) (hp.notMem (by decide) (by decide)))
    (not_mem_cons (by decide) (hp.notMem (by decide) (by decide)))
    (.inl (by decide))

/-! ## Branch lemmas for the conversion functions -/

theorem check_bracketed_host_msgs {h0 : List Char} {e : String}
    (h : check_bracketed_host h0 = some e) :
    e = "IPvFuture address is invalid" ∨
    e = "An IPv4 address cannot be in brackets" ∨ e = notIpMsg h0 := by
  unfold check_bracketed_host at h
  split at h
  · split at h
    · exact Option.noConfusion h
    · exact .inl (Option.some.inj h).symm
  · split at h
    · exact .inr (.inl (Option.some.inj h).symm)
    · split at h
      · exact Option.noConfusion h
      · exact .inr (.inr (Option.some.inj h).symm)

theorem bracketCheckErr_msgs {netloc : List Char} {e : String}
    (h : bracketCheckErr netloc = some e) :
    e = "IPvFuture address is invalid" ∨
    e = "An IPv4 address cannot be in brackets" ∨
    e = notIpMsg (bracketedHost netloc) := by
  unfold bracketCheckErr at h
  split at h
  · exact check_bracketed_host_msgs h
  · exact Option.noConfusion h

theorem urlsplits_error_char {x : List Char} {e : String}
    (h : urlsplits x = .error e) :
    e = "Invalid IPv6 URL" ∨ e = "IPvFuture address is invalid" ∨
    e = "An IPv4 address cannot be in brackets" ∨ ∃ h0, e = notIpMsg h0 := by
  simp only [urlsplits] at h
  split at h
  · split at h
    · exact .inl (Except.error.inj h).symm
    · split at h
      · rename_i e0 heq
        cases Except.error.inj h
        rcases bracketCheckErr_msgs heq with h1 | h1 | h1
        · exact .inr (.inl h1)
        · exact .inr (.inr (.inl h1))
        · exact .inr (.inr (.inr ⟨_, h1⟩))
      · exact Except.noConfusion h
  · exact Except.noConfusion h

theorem pyUrlparse_error_urlsplits {x : List Char} {e : String}
    (h : pyUrlparse x = .error e) : urlsplits x = .error e := by
  unfold pyUrlparse at h
  cases hu : urlsplits x with
  | error e0 =>
    rw [hu] at h
    have h' : (Except.error e0 : Except String SplitResult) = .error e := h
    rw [← Except.error.inj h']
  | ok r =>
    exfalso
    rw [hu] at h
    replace h :
        (if r.scheme ∈ usesParams ∧ ';' ∈ r.path then
          (pure { r with path := (splitParams r.path).1 } : Except String SplitResult)
        else pure r) = .error e := h
    split at h <;> cases h

theorem pyUrlparse_error_char {x : List Char} {e : String}
    (h : pyUrlparse x = .error e) :
    e = "Invalid IPv6 URL" ∨ e = "IPvFuture address is invalid" ∨
    e = "An IPv4 address cannot be in brackets" ∨ ∃ h0, e = notIpMsg h0 :=
  urlsplits_error_char (pyUrlparse_error_urlsplits h)

theorem is_ssh_url_git {x : List Char} (hg : startsWithL (lit "git@") x) :
    is_ssh_url x = .ok true := by
  unfold is_ssh_url
  rw [if_pos hg]
  rfl

theorem is_ssh_url_not_git {x : List Char} {p : SplitResult}
    (hg : ¬ startsWithL (lit "git@") x) (hp : pyUrlparse x = .ok p) :
    is_ssh_url x = .ok (decide (p.scheme = lit "ssh")) := by
  unfold is_ssh_url
  rw [if_neg hg, hp]
  rfl

theorem is_ssh_url_err {x : List Char} {e : String}
    (hg : ¬ startsWithL (lit "git@") x) (hp : pyUrlparse x = .error e) :
    is_ssh_url x = .error e := by
  unfold is_ssh_url
  rw [if_neg hg, hp]
  rfl

theorem to_ssh_url_git {x : List Char} (hg : startsWithL (lit "git@") x) :
    to_ssh_url x = .ok (ensure_git_suffix x) := by
  unfold to_ssh_url
  rw [is_ssh_url_git hg, if_pos hg]
  rfl

theorem to_ssh_url_err {x : List Char} {e : String}
    (hg : ¬ startsWithL (lit "git@") x) (hp : pyUrlparse x = .error e) :
    to_ssh_url x = .error e := by
  unfold to_ssh_url
  rw [is_ssh_url_err hg hp]
  rfl

theorem to_https_url_err {x : List Char} {e : String}
    (hg : ¬ startsWithL (lit "git@") x) (hp : pyUrlparse x = .error e) :
    to_https_url x = .error e := by
  unfold to_https_url
  rw [is_ssh_url_err hg hp]
  rfl

theorem to_ssh_url_sshscheme {x : List Char} {p : SplitResult}
    (hg : ¬ startsWithL (lit "git@") x) (hp : pyUrlparse x = .ok p)
    (hs : p.scheme = lit "ssh") :
    to_ssh_url x = .ok (lit "git@" ++ ((pyHostname p.netloc).getD p.netloc) ++
      lit ":" ++ strip_git_suffix (pyLstrip (· == '/') p.path) ++ lit ".git") := by
  unfold to_ssh_url
  rw [is_ssh_url_not_git hg hp]
  simp only [bind_ok_eq, decide_eq_true hs, if_neg hg, hp, reduceIte]
  rfl

theorem to_ssh_url_netloc {x : List Char} {p : SplitResult}
    (hg : ¬ startsWithL (lit "git@") x) (hp : pyUrlparse x = .ok p)
    (hs : ¬ p.scheme = lit "ssh") (hn : p.netloc ≠ [] ∧ p.path ≠ []) :
    to_ssh_url x = .ok (lit "git@" ++ p.netloc ++ lit ":" ++
      strip_git_suffix (pyLstrip (· == '/') p.path) ++ lit ".git") := by
  unfold to_ssh_url
  rw [is_ssh_url_not_git hg hp]
  simp only [bind_ok_eq, decide_eq_false hs, hp, reduceIte, if_pos hn]
  rfl

theorem to_ssh_url_bare {x : List Char} {p : SplitResult}
    (hg : ¬ startsWithL (lit "git@") x) (hp : pyUrlparse x = .ok p)
    (hs : ¬ p.scheme = lit "ssh") (hn : ¬ (p.netloc ≠ [] ∧ p.path ≠ []))
    (hsl : '/' ∈ bareCore x) :
    to_ssh_url x = .ok (lit "git@github.com:" ++ bareCore x ++ lit ".git") := by
  unfold to_ssh_url bareCore
  rw [is_ssh_url_not_git hg hp]
  simp only [bind_ok_eq, decide_eq_false hs, hp, reduceIte, if_neg hn,
      if_pos (show '/' ∈ strip_git_suffix (pyLstrip (fun x => x == '/') (pyStrip isPySpace x)) from hsl)]
  rfl

theorem to_ssh_url_fallback {x : List Char} {p : SplitResult}
    (hg : ¬ startsWithL (lit "git@") x) (hp : pyUrlparse x = .ok p)
    (hs : ¬ p.scheme = lit "ssh") (hn : ¬ (p.netloc ≠ [] ∧ p.path ≠ []))
    (hsl : '/' ∉ bareCore x) :
    to_ssh_url x = .ok (ensure_git_suffix x) := by
  unfold to_ssh_url
  rw [is_ssh_url_not_git hg hp]
  simp only [bind_ok_eq, decide_eq_false hs, hp, reduceIte, if_neg hn,
      if_neg (show '/' ∉ strip_git_suffix (pyLstrip (fun x => x == '/') (pyStrip isPySpace x)) from hsl)]
  rfl

theorem to_https_url_git_colon {x pre post : List Char}
    (hg : startsWithL (lit "git@") x)
    (hsp : splitFirst ':' x = some (pre, post)) :
    to_https_url x = .ok (lit "https://" ++ replaceList (lit "git@") [] pre ++
      lit "/" ++ strip_git_suffix post ++ lit ".git") := by
  unfold to_https_url
  rw [is_ssh_url_git hg, if_pos hg, hsp]
  rfl

theorem to_https_url_git_nocolon {x : List Char}
    (hg : startsWithL (lit "git@") x) (hsp : splitFirst ':' x = none) :
    to_https_url x = .ok (ensure_git_suffix x) := by
  unfold to_https_url
  rw [is_ssh_url_git hg, if_pos hg, hsp]
  rfl

theorem to_https_url_http {x : List Char} {p : SplitResult}
    (hg : ¬ startsWithL (lit "git@") x) (hp : pyUrlparse x = .ok p)
    (hs : ¬ p.scheme = lit "ssh")
    (hn : p.netloc ≠ [] ∧ (p.scheme = lit "http" ∨ p.scheme = lit "https")) :
    to_https_url x = .ok (ensure_git_suffix x) := by
  unfold to_https_url
  rw [is_ssh_url_not_git hg hp]
  simp only [bind_ok_eq, decide_eq_false hs, hp, reduceIte, if_pos hn]
  rfl

theorem to_https_url_bare {x : List Char} {p : SplitResult}
    (hg : ¬ startsWithL (lit "git@") x) (hp : pyUrlparse x = .ok p)
    (hs : ¬ p.scheme = lit "ssh")
    (hn : ¬ (p.netloc ≠ [] ∧ (p.scheme = lit "http" ∨ p.scheme = lit "https")))
    (hsl : '/' ∈ bareCore x) :
    to_https_url x = .ok (lit "https://github.com/" ++ bareCore x ++ lit ".git") := by
  unfold to_https_url bareCore
  rw [is_ssh_url_not_git hg hp]
  simp only [bind_ok_eq, decide_eq_false hs, hp, reduceIte, if_neg hn,
      if_pos (show '/' ∈ strip_git_suffix (pyLstrip (fun x => x == '/') (pyStrip isPySpace x)) from hsl)]
  rfl

theorem to_https_url_fallback {x : List Char} {p : SplitResult}
    (hg : ¬ startsWithL (lit "git@") x) (hp : pyUrlparse x = .ok p)
    (hs : ¬ p.scheme = lit "ssh")
    (hn : ¬ (p.netloc ≠ [] ∧ (p.scheme = lit "http" ∨ p.scheme = lit "https")))
    (hsl : '/' ∉ bareCore x) :
    to_https_url x = .ok (ensure_git_suffix x) := by
  unfold to_https_url
  rw [is_ssh_url_not_git hg hp]
  simp only [bind_ok_eq, decide_eq_false hs, hp, reduceIte, if_neg hn,
      if_neg (show '/' ∉ strip_git_suffix (pyLstrip (fun x => x == '/') (pyStrip isPySpace x)) from hsl)]
  rfl

theorem to_https_url_sshscheme_netloc {x : List Char} {p : SplitResult}
    (hg : ¬ startsWithL (lit "git@") x) (hp : pyUrlparse x = .ok p)
    (hs : p.scheme = lit "ssh") (hn : p.netloc ≠ [] ∧ p.path ≠ []) :
    to_https_url x = .ok (lit "https://" ++ ((pyHostname p.netloc).getD p.netloc) ++
      lit "/" ++ strip_git_suffix (pyLstrip (· == '/') p.path) ++ lit ".git") := by
  unfold to_https_url
  rw [is_ssh_url_not_git hg hp]
  simp only [bind_ok_eq, decide_eq_true hs, if_neg hg, hp, reduceIte, if_pos hn]
  rfl

theorem to_https_url_sshscheme_fallback {x : List Char} {p : SplitResult}
    (hg : ¬ startsWithL (lit "git@") x) (hp : pyUrlparse x = .ok p)
    (hs : p.scheme = lit "ssh") (hn : ¬ (p.netloc ≠ [] ∧ p.path ≠ [])) :
    to_https_url x = .ok (ensure_git_suffix x) := by
  unfold to_https_url
  rw [is_ssh_url_not_git hg hp]
  simp only [bind_ok_eq, decide_eq_true hs, if_neg hg, hp, reduceIte, if_neg hn]
  rfl

theorem https_repo_full_name_git_colon {x pre post : List Char}
    (hg : startsWithL (lit "git@") (pyStrip isPySpace x))
    (hsp : splitFirst ':' (pyStrip isPySpace x) = some (pre, post)) :
    https_repo_full_name x =
      .ok (noneIfEmpty (pyStrip (· == '/') (strip_git_suffix post))) := by
  unfold https_repo_full_name
  rw [if_pos hg, hsp]
  rfl

theorem https_repo_full_name_git_nocolon {x : List Char}
    (hg : startsWithL (lit "git@") (pyStrip isPySpace x))
    (hsp : splitFirst ':' (pyStrip isPySpace x) = none) :
    https_repo_full_name x = .ok none := by
  unfold https_repo_full_name
  rw [if_pos hg, hsp]
  rfl

theorem https_repo_full_name_netloc {x : List Char} {p : SplitResult}
    (hg : ¬ startsWithL (lit "git@") (pyStrip isPySpace x))
    (hp : pyUrlparse (pyStrip isPySpace x) = .ok p)
    (hn : p.netloc ≠ [] ∧ p.path ≠ []) :
    https_repo_full_name x =
      .ok (noneIfEmpty (strip_git_suffix (pyStrip (· == '/') p.path))) := by
  unfold https_repo_full_name
  rw [if_neg hg, hp]
  simp only [bind_ok_eq, if_pos hn]
  rfl

theorem https_repo_full_name_bare {x : List Char} {p : SplitResult}
    (hg : ¬ startsWithL (lit "git@") (pyStrip isPySpace x))
    (hp : pyUrlparse (pyStrip isPySpace x) = .ok p)
    (hn : ¬ (p.netloc ≠ [] ∧ p.path ≠ [])) :
    https_repo_full_name x =
      .ok (noneIfEmpty (strip_git_suffix (pyStrip (· == '/') (pyStrip isPySpace x)))) := by
  unfold https_repo_full_name
  rw [if_neg hg, hp]
  simp only [bind_ok_eq, if_neg hn]
  rfl

theorem https_repo_full_name_err {x : List Char} {e : String}
    (hg : ¬ startsWithL (lit "git@") (pyStrip isPySpace x))
    (hp : pyUrlparse (pyStrip isPySpace x) = .error e) :
    https_repo_full_name x = .error e := by
  unfold https_repo_full_name
  rw [if_neg hg, hp]
  rfl

/-! Evaluation of the conversion functions on well-formed references. -/

theorem pyLstrip_slash_cons {pth : List Char} (hph : pth.head? ≠ some '/') :
    pyLstrip (· == '/') ('/' :: pth) = pth := by
  show List.dropWhile (· == '/') ('/' :: pth) = pth
  rw [List.dropWhile_cons_of_pos (by decide)]
  exact pyLstrip_of_head (fun c hc => by
    simp only [beq_eq_false_iff_ne, ne_eq]
    rintro rfl
    exact hph hc)

theorem to_ssh_https_host {host pth : List Char} (hs : SafeStr host)
    (hh : host ≠ []) (hp : SafeSlashStr pth) (hph : pth.head? ≠ some '/') :
    to_ssh_url (lit "https://" ++ host ++ '/' :: pth) =
      .ok (lit "git@" ++ host ++ lit ":" ++ strip_git_suffix pth ++ lit ".git") := by
  have hg : ¬ startsWithL (lit "git@") (lit "https://" ++ host ++ '/' :: pth) := by
    rw [List.append_assoc]
    exact not_startsWith_of_take (by decide) (by decide)
  rw [to_ssh_url_netloc hg (pyUrlparse_https_host hs hp)
      (show ¬ lit "https" = lit "ssh" by decide) ⟨hh, by simp⟩]
  rw [show SplitResult.path ⟨lit "https", host, '/' :: pth, [], []⟩ = '/' :: pth from rfl,
      pyLstrip_slash_cons hph]

theorem to_ssh_ssh_host {host pth : List Char} (hs : SafeStr host)
    (hl : LowerStr host) (hh : host ≠ []) (hp : SafeSlashStr pth)
    (hph : pth.head? ≠ some '/') :
    to_ssh_url (lit "ssh://" ++ host ++ '/' :: pth) =
      .ok (lit "git@" ++ host ++ lit ":" ++ strip_git_suffix pth ++ lit ".git") := by
  have hg : ¬ startsWithL (lit "git@") (lit "ssh://" ++ host ++ '/' :: pth) := by
    rw [List.append_assoc]
    exact not_startsWith_of_take (by decide) (by decide)
  have hp4 := pyUrlparse_ssh_netloc hs.clean_all (fun c hc => (hs c hc).not_delim)
    (hs.not_mem (by decide)) (hs.not_mem (by decide)) hp
  rw [to_ssh_url_sshscheme hg hp4 (show lit "ssh" = lit "ssh" from rfl)]
  rw [show SplitResult.netloc ⟨lit "ssh", host, '/' :: pth, [], []⟩ = host from rfl,
      show SplitResult.path ⟨lit "ssh", host, '/' :: pth, [], []⟩ = '/' :: pth from rfl,
      hs.hostname_self hl hh, Option.getD_some, pyLstrip_slash_cons hph]

theorem bareCore_safe {o n : List Char} (hso : SafeStr o) (ho : o ≠ [])
    (hsn : SafeStr n) :
    bareCore (o ++ '/' :: n) = strip_git_suffix (o ++ '/' :: n) := by
  unfold bareCore
  obtain ⟨c, o', rfl⟩ : ∃ c o', o = c :: o' := by
    cases o with
    | nil => exact absurd rfl ho
    | cons c o' => exact ⟨c, o', rfl⟩
  rw [pyStrip_of_none (all_append hso.no_space (all_cons (by decide) hsn.no_space)),
      pyLstrip_of_head (fun d hd => by
        have hcd : c = d := by simpa using hd
        rw [← hcd]
        exact (hso c (List.mem_cons_self ..)).not_slash_bool)]

theorem to_ssh_bare_safe {o n : List Char} (hso : SafeStr o) (ho : o ≠ [])
    (hsn : SafeStr n) :
    to_ssh_url (o ++ '/' :: n) =
      .ok (lit "git@github.com:" ++ strip_git_suffix (o ++ '/' :: n) ++ lit ".git") := by
  have hg : ¬ startsWithL (lit "git@") (o ++ '/' :: n) :=
    not_startsWith_git_of_no_at
      (not_mem_append (hso.not_mem (by decide))
        (not_mem_cons (by decide) (hsn.not_mem (by decide))))
  have hcore := bareCore_safe hso ho hsn
  have hsl : '/' ∈ bareCore (o ++ '/' :: n) := by
    rw [hcore]
    exact mem_strip_git_of_ne (by simp) (by decide)
  rw [to_ssh_url_bare hg (pyUrlparse_bare_safe hso ho hsn)
      (show ¬ ([] : List Char) = lit "ssh" by decide) (fun hc => hc.1 rfl) hsl, hcore]

theorem to_https_bare_safe {o n : List Char} (hso : SafeStr o) (ho : o ≠ [])
    (hsn : SafeStr n) :
    to_https_url (o ++ '/' :: n) =
      .ok (lit "https://github.com/" ++ strip_git_suffix (o ++ '/' :: n) ++ lit ".git") := by
  have hg : ¬ startsWithL (lit "git@") (o ++ '/' :: n) :=
    not_startsWith_git_of_no_at
      (not_mem_append (hso.not_mem (by decide))
        (not_mem_cons (by decide) (hsn.not_mem (by decide))))
  have hcore := bareCore_safe hso ho hsn
  have hsl : '/' ∈ bareCore (o ++ '/' :: n) := by
    rw [hcore]
    exact mem_strip_git_of_ne (by simp) (by decide)
  rw [to_https_url_bare hg (pyUrlparse_bare_safe hso ho hsn)
      (show ¬ ([] : List Char) = lit "ssh" by decide) (fun hc => hc.1 rfl) hsl, hcore]

theorem to_https_git_host {host rest : List Char} (hcolon : ':' ∉ host)
    (hat : '@' ∉ host) :
    to_https_url (lit "git@" ++ host ++ ':' :: rest) =
      .ok (lit "https://" ++ host ++ lit "/" ++ strip_git_suffix rest ++ lit ".git") := by
  have hg : startsWithL (lit "git@") (lit "git@" ++ host ++ ':' :: rest) := by
    rw [List.append_assoc]
    exact startsWithL_of_append _ _
  have hsp : splitFirst ':' (lit "git@" ++ host ++ ':' :: rest) =
      some (lit "git@" ++ host, rest) :=
    splitFirst_append_cons (not_mem_append (by decide) hcolon)
  rw [to_https_url_git_colon hg hsp, replaceList_git_prefix hat]

theorem to_https_ssh_githost {host pth : List Char} (hs : SafeStr host)
    (hl : LowerStr host) (hh : host ≠ []) (hp : SafeSlashStr pth)
    (hph : pth.head? ≠ some '/') :
    to_https_url (lit "ssh://" ++ (lit "git@" ++ host) ++ '/' :: pth) =
      .ok (lit "https://" ++ host ++ lit "/" ++ strip_git_suffix pth ++ lit ".git") := by
  have hg : ¬ startsWithL (lit "git@") (lit "ssh://" ++ (lit "git@" ++ host) ++ '/' :: pth) := by
    rw [List.append_assoc]
    exact not_startsWith_of_take (by decide) (by decide)
  have hp4 : pyUrlparse (lit "ssh://" ++ (lit "git@" ++ host) ++ '/' :: pth) =
      .ok ⟨lit "ssh", lit "git@" ++ host, '/' :: pth, [], []⟩ :=
    pyUrlparse_ssh_netloc
      (all_append (by decide) hs.clean_all)
      (all_append (by decide) (fun c hc => (hs c hc).not_delim))
      (not_mem_append (by decide) (hs.not_mem (by decide)))
      (not_mem_append (by decide) (hs.not_mem (by decide))) hp
  have hne : lit "git@" ++ host ≠ [] := by
    intro h0
    have := congrArg List.length h0
    simp [lit] at this
  rw [to_https_url_sshscheme_netloc hg hp4 (show lit "ssh" = lit "ssh" from rfl)
      ⟨hne, by simp⟩]
  have hhost : pyHostname (lit "git@" ++ host) = some host := by
    rw [pyHostname_git_at (hs.not_mem (by decide)) (hs.not_mem (by decide))
        (hs.not_mem (by decide)) (hs.not_mem (by decide)) hh,
        map_toLower_of_lower hl]
  rw [show SplitResult.netloc ⟨lit "ssh", lit "git@" ++ host, '/' :: pth, [], []⟩ =
        lit "git@" ++ host from rfl,
      show SplitResult.path ⟨lit "ssh", lit "git@" ++ host, '/' :: pth, [], []⟩ =
        '/' :: pth from rfl,
      hhost, Option.getD_some, pyLstrip_slash_cons hph]

theorem not_endsWith_git_slash {o n : List Char} (hn : ¬ endsWithL (lit ".git") n) :
    ¬ endsWithL (lit ".git") (o ++ '/' :: n) := by
  intro he
  unfold endsWithL at he hn
  rw [show (lit ".git").length = 4 from rfl] at he hn
  have hlen : (o ++ '/' :: n).length = o.length + (n.length + 1) := by simp
  have hge : 4 ≤ (o ++ '/' :: n).length := by
    have h4 := congrArg List.length he
    rw [List.length_drop] at h4
    have : (lit ".git").length = 4 := rfl
    omega
  rcases Nat.lt_or_ge n.length 4 with h4 | h4
  · have hdropn : (o ++ '/' :: n).drop o.length = '/' :: n := List.drop_left o ('/' :: n)
    have heq : '/' :: n = (lit ".git").drop (3 - n.length) := by
      calc '/' :: n = (o ++ '/' :: n).drop o.length := hdropn.symm
        _ = ((o ++ '/' :: n).drop ((o ++ '/' :: n).length - 4)).drop (3 - n.length) := by
            rw [List.drop_drop]
            congr 1
            omega
        _ = (lit ".git").drop (3 - n.length) := by rw [he]
    have hk : 3 - n.length = 0 ∨ 3 - n.length = 1 ∨ 3 - n.length = 2 ∨
        3 - n.length = 3 := by omega
    rcases hk with hk | hk | hk | hk <;> rw [hk] at heq <;> simp [lit] at heq
  · apply hn
    have hdropn : (o ++ '/' :: n).drop (o.length + 1) = n := by
      rw [show o ++ '/' :: n = (o ++ ['/']) ++ n from by simp, List.drop_left' (by simp)]
    calc n.drop (n.length - 4)
        = ((o ++ '/' :: n).drop (o.length + 1)).drop (n.length - 4) := by rw [hdropn]
      _ = (o ++ '/' :: n).drop ((o.length + 1) + (n.length - 4)) := List.drop_drop ..
      _ = lit ".git" := by
            rw [show (o.length + 1) + (n.length - 4) = (o ++ '/' :: n).length - 4 from by omega]
            exact he

/-- `https_repo_full_name` of a well-behaved scp-style reference. -/
theorem full_name_scp {x : List Char} (hws : ∀ c ∈ x, isPySpace c = false)
    (hh : ∀ c, x.head? = some c → (c == '/') = false)
    (ht : ∀ c, x.reverse.head? = some c → (c == '/') = false)
    (hne : x ≠ []) :
    https_repo_full_name (lit "git@github.com:" ++ x ++ lit ".git") = .ok (some x) := by
  have hstrip : pyStrip isPySpace (lit "git@github.com:" ++ x ++ lit ".git") =
      lit "git@github.com:" ++ x ++ lit ".git" :=
    pyStrip_of_none (all_append (all_append (by decide) hws) (by decide))
  have hg : startsWithL (lit "git@") (lit "git@github.com:" ++ x ++ lit ".git") := by
    rw [List.append_assoc]
    exact startsWith_of_take (by decide) (by decide)
  have hsh : lit "git@github.com:" ++ x ++ lit ".git" =
      lit "git@github.com" ++ ':' :: (x ++ lit ".git") := by
    rw [List.append_assoc]
    rfl
  have hsp : splitFirst ':' (lit "git@github.com:" ++ x ++ lit ".git") =
      some (lit "git@github.com", x ++ lit ".git") := by
    rw [hsh]
    exact splitFirst_append_cons (by decide)
  rw [https_repo_full_name_git_colon (x := lit "git@github.com:" ++ x ++ lit ".git")
      (by rw [hstrip]; exact hg) (by rw [hstrip]; exact hsp)]
  rw [strip_git_append, pyStrip_no_edge hh ht]
  unfold noneIfEmpty
  rw [if_neg hne]

/-- `https_repo_full_name` of a well-behaved github https URL. -/
theorem full_name_https_github {x : List Char} (hsx : SafeSlashStr x)
    (hh : x.head? ≠ some '/') (hne : x ≠ []) :
    https_repo_full_name (lit "https://github.com/" ++ x ++ lit ".git") =
      .ok (some x) := by
  have hstrip : pyStrip isPySpace (lit "https://github.com/" ++ x ++ lit ".git") =
      lit "https://github.com/" ++ x ++ lit ".git" :=
    pyStrip_of_none (all_append (all_append (by decide) hsx.noSpace) (by decide))
  have hg : ¬ startsWithL (lit "git@") (lit "https://github.com/" ++ x ++ lit ".git") := by
    rw [List.append_assoc]
    exact not_startsWith_of_take (by decide) (by decide)
  have hsh : lit "https://github.com/" ++ x ++ lit ".git" =
      lit "https://" ++ lit "github.com" ++ '/' :: (x ++ lit ".git") := by
    simp only [List.append_assoc]
    rfl
  have hp4 : pyUrlparse (lit "https://github.com/" ++ x ++ lit ".git") =
      .ok ⟨lit "https", lit "github.com", '/' :: (x ++ lit ".git"), [], []⟩ := by
    rw [hsh]
    exact pyUrlparse_https_host (by decide) (all_append hsx (by decide))
  rw [https_repo_full_name_netloc (by rw [hstrip]; exact hg) (by rw [hstrip]; exact hp4)
      ⟨show (lit "github.com" : List Char) ≠ [] by decide,
       show ('/' :: (x ++ lit ".git") : List Char) ≠ [] by simp⟩]
  have hps : pyStrip (· == '/') ('/' :: (x ++ lit ".git")) = x ++ lit ".git" := by
    unfold pyStrip
    rw [pyLstrip_slash_cons (by rw [head?_append_cons hne]; exact hh),
        pyRstrip_of_rev_head (fun c hc => by
          rw [List.reverse_append,
              show (lit ".git").reverse = 't' :: lit "ig." from rfl,
              List.cons_append] at hc
          simp only [List.head?_cons, Option.some.injEq] at hc
          subst hc
          decide)]
  rw [show SplitResult.path ⟨lit "https", lit "github.com", '/' :: (x ++ lit ".git"), [], []⟩ =
      '/' :: (x ++ lit ".git") from rfl, hps, strip_git_append]
  unfold noneIfEmpty
  rw [if_neg hne]

/-! Totality of each conversion function, up to the urlparse guard. -/

theorem is_ssh_url_ok_of {x : List Char}
    (h : startsWithL (lit "git@") x ∨ ∃ p, pyUrlparse x = .ok p) :
    ∃ b, is_ssh_url x = .ok b := by
  by_cases hg : startsWithL (lit "git@") x
  · exact ⟨true, is_ssh_url_git hg⟩
  · rcases h with hg' | ⟨p, hp⟩
    · exact absurd hg' hg
    · exact ⟨_, is_ssh_url_not_git hg hp⟩

theorem is_ssh_url_guard {x : List Char} (h : ∃ b, is_ssh_url x = .ok b) :
    startsWithL (lit "git@") x ∨ ∃ p, pyUrlparse x = .ok p := by
  by_cases hg : startsWithL (lit "git@") x
  · exact .inl hg
  · cases hpp : pyUrlparse x with
    | ok p => exact .inr ⟨p, rfl⟩
    | error e =>
      rcases h with ⟨b, hb⟩
      rw [is_ssh_url_err hg hpp] at hb
      cases hb

theorem to_ssh_url_ok_of {x : List Char}
    (h : startsWithL (lit "git@") x ∨ ∃ p, pyUrlparse x = .ok p) :
    ∃ v, to_ssh_url x = .ok v := by
  by_cases hg : startsWithL (lit "git@") x
  · exact ⟨_, to_ssh_url_git hg⟩
  · rcases h with hg' | ⟨p, hp⟩
    · exact absurd hg' hg
    · by_cases hs : p.scheme = lit "ssh"
      · exact ⟨_, to_ssh_url_sshscheme hg hp hs⟩
      · by_cases hn : p.netloc ≠ [] ∧ p.path ≠ []
        · exact ⟨_, to_ssh_url_netloc hg hp hs hn⟩
        · by_cases hsl : '/' ∈ bareCore x
          · exact ⟨_, to_ssh_url_bare hg hp hs hn hsl⟩
          · exact ⟨_, to_ssh_url_fallback hg hp hs hn hsl⟩

theorem to_ssh_url_guard {x : List Char} (h : ∃ v, to_ssh_url x = .ok v) :
    startsWithL (lit "git@") x ∨ ∃ p, pyUrlparse x = .ok p := by
  by_cases hg : startsWithL (lit "git@") x
  · exact .inl hg
  · cases hpp : pyUrlparse x with
    | ok p => exact .inr ⟨p, rfl⟩
    | error e =>
      rcases h with ⟨v, hv⟩
      rw [to_ssh_url_err hg hpp] at hv
      cases hv

theorem to_https_url_ok_of {x : List Char}
    (h : startsWithL (lit "git@") x ∨ ∃ p, pyUrlparse x = .ok p) :
    ∃ v, to_https_url x = .ok v := by
  by_cases hg : startsWithL (lit "git@") x
  · cases hc : splitFirst ':' x with
    | none => exact ⟨_, to_https_url_git_nocolon hg hc⟩
    | some pr =>
      obtain ⟨pre, post⟩ := pr
      exact ⟨_, to_https_url_git_colon hg hc⟩
  · rcases h with hg' | ⟨p, hp⟩
    · exact absurd hg' hg
    · by_cases hs : p.scheme = lit "ssh"
      · by_cases hn : p.netloc ≠ [] ∧ p.path ≠ []
        · exact ⟨_, to_https_url_sshscheme_netloc hg hp hs hn⟩
        · exact ⟨_, to_https_url_sshscheme_fallback hg hp hs hn⟩
      · by_cases hn : p.netloc ≠ [] ∧ (p.scheme = lit "http" ∨ p.scheme = lit "https")
        · exact ⟨_, to_https_url_http hg hp hs hn⟩
        · by_cases hsl : '/' ∈ bareCore x
          · exact ⟨_, to_https_url_bare hg hp hs hn hsl⟩
          · exact ⟨_, to_https_url_fallback hg hp hs hn hsl⟩

theorem to_https_url_guard {x : List Char} (h : ∃ v, to_https_url x = .ok v) :
    startsWithL (lit "git@") x ∨ ∃ p, pyUrlparse x = .ok p := by
  by_cases hg : startsWithL (lit "git@") x
  · exact .inl hg
  · cases hpp : pyUrlparse x with
    | ok p => exact .inr ⟨p, rfl⟩
    | error e =>
      rcases h with ⟨v, hv⟩
      rw [to_https_url_err hg hpp] at hv
      cases hv

theorem https_repo_full_name_ok_of {x : List Char}
    (h : startsWithL (lit "git@") (pyStrip isPySpace x) ∨
      ∃ p, pyUrlparse (pyStrip isPySpace x) = .ok p) :
    ∃ v, https_repo_full_name x = .ok v := by
  by_cases hg : startsWithL (lit "git@") (pyStrip isPySpace x)
  · cases hc : splitFirst ':' (pyStrip isPySpace x) with
    | none => exact ⟨_, https_repo_full_name_git_nocolon hg hc⟩
    | some pr =>
      obtain ⟨pre, post⟩ := pr
      exact ⟨_, https_repo_full_name_git_colon hg hc⟩
  · rcases h with hg' | ⟨p, hp⟩
    · exact absurd hg' hg
    · by_cases hn : p.netloc ≠ [] ∧ p.path ≠ []
      · exact ⟨_, https_repo_full_name_netloc hg hp hn⟩
      · exact ⟨_, https_repo_full_name_bare hg hp hn⟩

theorem https_repo_full_name_guard {x : List Char}
    (h : ∃ v, https_repo_full_name x = .ok v) :
    startsWithL (lit "git@") (pyStrip isPySpace x) ∨
      ∃ p, pyUrlparse (pyStrip isPySpace x) = .ok p := by
  by_cases hg : startsWithL (lit "git@") (pyStrip isPySpace x)
  · exact .inl hg
  · cases hpp : pyUrlparse (pyStrip isPySpace x) with
    | ok p => exact .inr ⟨p, rfl⟩
    | error e =>
      rcases h with ⟨v, hv⟩
      rw [https_repo_full_name_err hg hpp] at hv
      cases hv

/-! The no-slash fallback: without a slash there is never an authority. -/

theorem mem_of_mem_pyStrip {p : Char → Bool} {c : Char} {l : List Char}
    (hc : c ∈ pyStrip p l) : c ∈ l := by
  unfold pyStrip pyRstrip pyLstrip at hc
  have h1 := (List.dropWhile_sublist (l := (l.dropWhile p).reverse) p).subset
    (List.mem_reverse.mp hc)
  exact (List.dropWhile_sublist p).subset (List.mem_reverse.mp (by simpa using h1))

theorem mem_bareCore_sub {c : Char} {x : List Char} (hc : c ∈ bareCore x) :
    c ∈ x := by
  unfold bareCore at hc
  have h1 := mem_of_mem_strip_git hc
  have h2 := (List.dropWhile_sublist (l := pyStrip isPySpace x) (· == '/')).subset h1
  exact mem_of_mem_pyStrip h2

theorem mem_of_mem_urlClean {c : Char} {l : List Char} (hc : c ∈ urlClean l) :
    c ∈ l := by
  unfold urlClean at hc
  exact (List.dropWhile_sublist isC0OrSpace).subset (List.mem_of_mem_filter hc)

theorem splitScheme_snd_cases (url : List Char) :
    (splitScheme url).2 = url ∨
      (splitScheme url).2 = (url.dropWhile (· != ':')).tail := by
  unfold splitScheme
  split
  · split
    · exact .inr rfl
    · exact .inl rfl
  · exact .inl rfl

theorem urlsplits_no_slash {x : List Char} (h : '/' ∉ x) :
    ∃ r, urlsplits x = .ok r ∧ r.netloc = [] := by
  have h1 : '/' ∉ urlClean x := fun hm => h (mem_of_mem_urlClean hm)
  have h2 : '/' ∉ (splitScheme (urlClean x)).2 := by
    rcases splitScheme_snd_cases (urlClean x) with he | he <;> rw [he]
    · exact h1
    · exact fun hm =>
        h1 ((List.dropWhile_sublist _).subset (List.mem_of_mem_tail hm))
  have h3 : (splitScheme (urlClean x)).2.take 2 ≠ lit "//" := by
    intro he
    apply h2
    apply List.take_subset 2
    rw [he]
    decide
  refine ⟨⟨(splitScheme (urlClean x)).1, [],
    (splitQuery (splitFragment (splitScheme (urlClean x)).2).1).1,
    (splitQuery (splitFragment (splitScheme (urlClean x)).2).1).2,
    (splitFragment (splitScheme (urlClean x)).2).2⟩, ?_, rfl⟩
  simp only [urlsplits]
  rw [if_neg h3]

theorem pyUrlparse_no_slash {x : List Char} (h : '/' ∉ x) :
    ∃ p, pyUrlparse x = .ok p ∧ p.netloc = [] := by
  obtain ⟨r, hr, hrn⟩ := urlsplits_no_slash h
  unfold pyUrlparse
  rw [hr, bind_ok_eq]
  by_cases hc : r.scheme ∈ usesParams ∧ ';' ∈ r.path
  · rw [if_pos hc]
    exact ⟨_, rfl, hrn⟩
  · rw [if_neg hc]
    exact ⟨r, rfl, hrn⟩

theorem to_ssh_no_slash {x : List Char} {p : SplitResult} (h : '/' ∉ x)
    (hp : pyUrlparse x = .ok p) (hs : ¬ p.scheme = lit "ssh") :
    to_ssh_url x = .ok (ensure_git_suffix x) := by
  by_cases hg : startsWithL (lit "git@") x
  · exact to_ssh_url_git hg
  · obtain ⟨p', hp', hn'⟩ := pyUrlparse_no_slash h
    have hpp : p.netloc = [] := by
      rw [hp] at hp'
      rw [Except.ok.inj hp']
      exact hn'
    exact to_ssh_url_fallback hg hp hs (fun hc => hc.1 hpp)
      (fun hm => h (mem_bareCore_sub hm))

theorem to_https_no_slash {x : List Char} (h : '/' ∉ x)
    (hgc : startsWithL (lit "git@") x → ':' ∉ x) :
    to_https_url x = .ok (ensure_git_suffix x) := by
  by_cases hg : startsWithL (lit "git@") x
  · exact to_https_url_git_nocolon hg (splitFirst_of_not_mem (hgc hg))
  · obtain ⟨p, hp, hn⟩ := pyUrlparse_no_slash h
    by_cases hs : p.scheme = lit "ssh"
    · exact to_https_url_sshscheme_fallback hg hp hs (fun hc => hc.1 hn)
    · exact to_https_url_fallback hg hp hs (fun hc => hc.1 hn)
        (fun hm => h (mem_bareCore_sub hm))

/-! ## Stability of parsing under appending `.git` (for idempotence) -/

theorem takeWhile_dropWhile_split {p : Char → Bool} {l : List Char}
    (hne : l.dropWhile p ≠ []) :
    ∃ d B, l = l.takeWhile p ++ d :: B ∧ p d = false ∧ l.dropWhile p = d :: B := by
  obtain ⟨d, B, hdB⟩ : ∃ d B, l.dropWhile p = d :: B := by
    cases h : l.dropWhile p with
    | nil => exact absurd h hne
    | cons d B => exact ⟨d, B, rfl⟩
  refine ⟨d, B, ?_, ?_, hdB⟩
  · conv_lhs => rw [← List.takeWhile_append_dropWhile (p := p) l]
    rw [hdB]
  · have hh := List.head_dropWhile_not p l hne
    have : (l.dropWhile p).head hne = d := by
      simp [hdB]
    rwa [this] at hh

theorem exists_split_first {c : Char} {l : List Char} (hc : c ∈ l) :
    ∃ A B, l = A ++ c :: B ∧ c ∉ A := by
  have hne : l.dropWhile (· != c) ≠ [] := by
    intro h0
    have := List.dropWhile_eq_nil_iff.mp h0 c hc
    simp at this
  obtain ⟨d, B, hl, hd, hdrop⟩ := takeWhile_dropWhile_split hne
  have hdc : d = c := by simpa using hd
  subst hdc
  refine ⟨l.takeWhile (· != d), B, hl, ?_⟩
  intro hm
  have := List.mem_takeWhile_imp hm
  simp at this

theorem urlClean_append_git (x : List Char) :
    urlClean (x ++ lit ".git") = urlClean x ++ lit ".git" := by
  unfold urlClean
  rw [List.dropWhile_append]
  split
  · rename_i h
    rw [List.isEmpty_iff] at h
    rw [h]
    decide
  · rw [List.filter_append]
    rfl

theorem mem_append_git_iff {c : Char} {l : List Char} (hc : c ∉ lit ".git") :
    c ∈ l ++ lit ".git" ↔ c ∈ l := by
  rw [List.mem_append]
  exact or_iff_left hc

theorem head?_append_git (l : List Char) :
    (l ++ lit ".git").head? = l.head? ∨ (l = [] ∧ (l ++ lit ".git").head? = some '.') := by
  cases l with
  | nil => exact .inr ⟨rfl, rfl⟩
  | cons a t => exact .inl rfl

theorem splitScheme_eval {A B : List Char} (hA : ':' ∉ A) :
    splitScheme (A ++ ':' :: B) =
      if A ≠ [] ∧ (A ++ ':' :: B).head?.any Char.isAlpha = true ∧
          A.all isSchemeChar = true
      then (A.map Char.toLower, B) else ([], A ++ ':' :: B) := by
  unfold splitScheme
  rw [if_pos (by simp), takeWhile_append_cons hA, dropWhile_append_cons hA]
  split
  · rfl
  · rfl

theorem splitScheme_append_git (u : List Char) :
    (splitScheme (u ++ lit ".git")).1 = (splitScheme u).1 ∧
    (splitScheme (u ++ lit ".git")).2 = (splitScheme u).2 ++ lit ".git" := by
  by_cases hc : ':' ∈ u
  · obtain ⟨A, B, rfl, hA⟩ := exists_split_first hc
    have hsh : (A ++ ':' :: B) ++ lit ".git" = A ++ ':' :: (B ++ lit ".git") := by
      simp
    rw [hsh]
    have hh : (A ++ ':' :: (B ++ lit ".git")).head? = (A ++ ':' :: B).head? := by
      cases A with
      | nil => rfl
      | cons a t => rfl
    rw [splitScheme_eval hA, splitScheme_eval hA, hh]
    by_cases hcond : A ≠ [] ∧ Option.any Char.isAlpha (A ++ ':' :: B).head? = true ∧
        A.all isSchemeChar = true
    · rw [if_pos hcond, if_pos hcond]
      exact ⟨rfl, rfl⟩
    · rw [if_neg hcond, if_neg hcond]
      exact ⟨rfl, by simp⟩
  · have hc2 : ':' ∉ u ++ lit ".git" := by
      rw [mem_append_git_iff (by decide)]
      exact hc
    rw [splitScheme_no_colon hc, splitScheme_no_colon hc2]
    exact ⟨rfl, rfl⟩

theorem take2_append_git (r : List Char) :
    (r ++ lit ".git").take 2 = lit "//" ↔ r.take 2 = lit "//" := by
  rcases r with _ | ⟨a, _ | ⟨b, t⟩⟩
  · constructor
    · intro h
      exact absurd h (by decide)
    · intro h
      exact absurd h (by decide)
  · constructor
    · intro h
      have h2 : a :: '.' :: [] = '/' :: '/' :: [] := h
      simp at h2
    · intro h
      have h2 : a :: ([] : List Char) = '/' :: '/' :: [] := h
      simp at h2
  · have e1 : ((a :: b :: t) ++ lit ".git").take 2 = a :: b :: [] := rfl
    have e2 : (a :: b :: t).take 2 = a :: b :: [] := rfl
    rw [e1, e2]

theorem splitNetloc_append_git_of_nil {w : List Char}
    (h : (splitNetloc w).2 = []) :
    splitNetloc (w ++ lit ".git") = ((splitNetloc w).1 ++ lit ".git", []) := by
  have hall : ∀ c ∈ w, (!isNetlocDelim c) = true :=
    List.dropWhile_eq_nil_iff.mp h
  have hfst : (splitNetloc w).1 = w := List.takeWhile_eq_self_iff.mpr hall
  rw [hfst]
  unfold splitNetloc
  rw [List.takeWhile_append_of_pos hall, List.dropWhile_append_of_pos hall]
  rfl

theorem splitNetloc_append_git_of_ne {w : List Char}
    (h : (splitNetloc w).2 ≠ []) :
    splitNetloc (w ++ lit ".git") =
      ((splitNetloc w).1, (splitNetloc w).2 ++ lit ".git") := by
  have h' : w.dropWhile (fun c => !isNetlocDelim c) ≠ [] := h
  obtain ⟨d, B, hw, hd, hdrop⟩ := takeWhile_dropWhile_split h'
  have hA : ∀ c ∈ w.takeWhile (fun c => !isNetlocDelim c), (!isNetlocDelim c) = true :=
    fun c hc => List.mem_takeWhile_imp (p := fun c => !isNetlocDelim c) (l := w) hc
  have hfst : (splitNetloc w).1 = w.takeWhile (fun c => !isNetlocDelim c) := rfl
  have hsnd : (splitNetloc w).2 = d :: B := hdrop
  rw [hfst, hsnd]
  unfold splitNetloc
  conv_lhs => rw [hw]
  rw [show (w.takeWhile (fun c => !isNetlocDelim c) ++ d :: B) ++ lit ".git" =
      w.takeWhile (fun c => !isNetlocDelim c) ++ d :: (B ++ lit ".git") from by simp]
  rw [List.takeWhile_append_of_pos hA, List.dropWhile_append_of_pos hA,
      List.takeWhile_cons_of_neg (by simp [hd]), List.dropWhile_cons_of_neg (by simp [hd]),
      List.append_nil]
  rfl

theorem splitFragment_mem {A B : List Char} (hA : '#' ∉ A) :
    splitFragment (A ++ '#' :: B) = (A, B) := by
  unfold splitFragment
  rw [if_pos (by simp), takeWhile_append_cons hA, dropWhile_append_cons hA]
  rfl

theorem splitQuery_mem {A B : List Char} (hA : '?' ∉ A) :
    splitQuery (A ++ '?' :: B) = (A, B) := by
  unfold splitQuery
  rw [if_pos (by simp), takeWhile_append_cons hA, dropWhile_append_cons hA]
  rfl

theorem splitFQ_append_git (rest : List Char) :
    ((splitFragment (rest ++ lit ".git")).2 = (splitFragment rest).2 ++ lit ".git" ∧
     (splitQuery (splitFragment (rest ++ lit ".git")).1).1 =
       (splitQuery (splitFragment rest).1).1 ∧
     (splitQuery (splitFragment (rest ++ lit ".git")).1).2 =
       (splitQuery (splitFragment rest).1).2) ∨
    ((splitFragment (rest ++ lit ".git")).2 = (splitFragment rest).2 ∧
     (splitQuery (splitFragment (rest ++ lit ".git")).1).1 =
       (splitQuery (splitFragment rest).1).1 ∧
     (splitQuery (splitFragment (rest ++ lit ".git")).1).2 =
       (splitQuery (splitFragment rest).1).2 ++ lit ".git") ∨
    ((splitFragment (rest ++ lit ".git")).2 = (splitFragment rest).2 ∧
     (splitQuery (splitFragment rest).1).1 = rest ∧
     (splitQuery (splitFragment (rest ++ lit ".git")).1).1 = rest ++ lit ".git" ∧
     (splitQuery (splitFragment (rest ++ lit ".git")).1).2 =
       (splitQuery (splitFragment rest).1).2 ∧
     '#' ∉ rest ∧ '?' ∉ rest) := by
  by_cases hf : '#' ∈ rest
  · obtain ⟨A, B, rfl, hA⟩ := exists_split_first hf
    left
    rw [show (A ++ '#' :: B) ++ lit ".git" = A ++ '#' :: (B ++ lit ".git") from by simp,
        splitFragment_mem hA, splitFragment_mem hA]
    exact ⟨rfl, rfl, rfl⟩
  · have hf2 : '#' ∉ rest ++ lit ".git" := not_mem_append hf (by decide)
    have e1 : (splitFragment (rest ++ lit ".git")).1 = rest ++ lit ".git" := by
      rw [splitFragment_no hf2]
    have e2 : (splitFragment (rest ++ lit ".git")).2 = ([] : List Char) := by
      rw [splitFragment_no hf2]
    have e1' : (splitFragment rest).1 = rest := by rw [splitFragment_no hf]
    have e2' : (splitFragment rest).2 = ([] : List Char) := by rw [splitFragment_no hf]
    rw [e1, e2, e1', e2']
    by_cases hq : '?' ∈ rest
    · obtain ⟨A, B, rfl, hA⟩ := exists_split_first hq
      right; left
      rw [show (A ++ '?' :: B) ++ lit ".git" = A ++ '?' :: (B ++ lit ".git") from by simp,
          splitQuery_mem hA, splitQuery_mem hA]
      exact ⟨rfl, rfl, rfl⟩
    · have hq2 : '?' ∉ rest ++ lit ".git" := not_mem_append hq (by decide)
      rw [splitQuery_no hq, splitQuery_no hq2]
      right; right
      exact ⟨rfl, rfl, rfl, rfl, hf, hq⟩

theorem urlsplits_append_git {x : List Char} {r : SplitResult}
    (h : urlsplits x = .ok r) :
    (∃ e, urlsplits (x ++ lit ".git") = .error e) ∨
    ∃ r', urlsplits (x ++ lit ".git") = .ok r' ∧
      ((r' = { r with netloc := r.netloc ++ lit ".git" } ∧ r.path = []) ∨
       r' = { r with fragment := r.fragment ++ lit ".git" } ∨
       r' = { r with query := r.query ++ lit ".git" } ∨
       (r' = { r with path := r.path ++ lit ".git" } ∧
         (r.netloc = [] ∨ r.path.head? = some '/'))) := by
  simp only [urlsplits] at h ⊢
  rw [urlClean_append_git, (splitScheme_append_git (urlClean x)).1,
      (splitScheme_append_git (urlClean x)).2]
  by_cases hauth : ((splitScheme (urlClean x)).2).take 2 = lit "//"
  · rw [if_pos hauth] at h
    rw [if_pos ((take2_append_git _).mpr hauth)]
    have hlen : 2 ≤ (splitScheme (urlClean x)).2.length := by
      have h2 := congrArg List.length hauth
      rw [List.length_take] at h2
      have h3 : (lit "//").length = 2 := rfl
      rw [h3] at h2
      omega
    have hdrop : ((splitScheme (urlClean x)).2 ++ lit ".git").drop 2
        = (splitScheme (urlClean x)).2.drop 2 ++ lit ".git" := by
      rw [List.drop_append_eq_append_drop]
      have h4 : 2 - (splitScheme (urlClean x)).2.length = 0 := by omega
      rw [h4]
      rfl
    rw [hdrop]
    set w := (splitScheme (urlClean x)).2.drop 2 with hw
    by_cases hnil : (splitNetloc w).2 = []
    · have e1 : (splitNetloc (w ++ lit ".git")).1 = (splitNetloc w).1 ++ lit ".git" := by
        rw [splitNetloc_append_git_of_nil hnil]
      have e2 : (splitNetloc (w ++ lit ".git")).2 = ([] : List Char) := by
        rw [splitNetloc_append_git_of_nil hnil]
      rw [e1, e2]
      rw [hnil] at h
      by_cases hbr : ('[' ∈ (splitNetloc w).1 ∧ ']' ∉ (splitNetloc w).1) ∨
          (']' ∈ (splitNetloc w).1 ∧ '[' ∉ (splitNetloc w).1)
      · rw [if_pos hbr] at h
        exact Except.noConfusion h
      · rw [if_neg hbr] at h
        have hbr' : ¬ (('[' ∈ (splitNetloc w).1 ++ lit ".git" ∧
              ']' ∉ (splitNetloc w).1 ++ lit ".git") ∨
            (']' ∈ (splitNetloc w).1 ++ lit ".git" ∧
              '[' ∉ (splitNetloc w).1 ++ lit ".git")) := by
          rw [mem_append_git_iff (show ('[' : Char) ∉ lit ".git" from by decide),
              mem_append_git_iff (show (']' : Char) ∉ lit ".git" from by decide)]
          exact hbr
        rw [if_neg hbr']
        cases hbc : bracketCheckErr (splitNetloc w).1 with
        | some e0 =>
          rw [hbc] at h
          exact Except.noConfusion h
        | none =>
          rw [hbc] at h
          cases hbc2 : bracketCheckErr ((splitNetloc w).1 ++ lit ".git") with
          | some e0 =>
            left
            exact ⟨e0, rfl⟩
          | none =>
            cases Except.ok.inj h
            exact .inr ⟨_, rfl, .inl ⟨rfl, rfl⟩⟩
    · have e1 : (splitNetloc (w ++ lit ".git")).1 = (splitNetloc w).1 := by
        rw [splitNetloc_append_git_of_ne hnil]
      have e2 : (splitNetloc (w ++ lit ".git")).2 = (splitNetloc w).2 ++ lit ".git" := by
        rw [splitNetloc_append_git_of_ne hnil]
      rw [e1, e2]
      by_cases hbr : ('[' ∈ (splitNetloc w).1 ∧ ']' ∉ (splitNetloc w).1) ∨
          (']' ∈ (splitNetloc w).1 ∧ '[' ∉ (splitNetloc w).1)
      · rw [if_pos hbr] at h
        exact Except.noConfusion h
      · rw [if_neg hbr] at h
        rw [if_neg hbr]
        cases hbc : bracketCheckErr (splitNetloc w).1 with
        | some e0 =>
          rw [hbc] at h
          exact Except.noConfusion h
        | none =>
          rw [hbc] at h
          cases Except.ok.inj h
          rcases splitFQ_append_git (splitNetloc w).2 with
            ⟨h1, h2, h3⟩ | ⟨h1, h2, h3⟩ | ⟨h1, hq1, hq1', hq2, hnf, hnq⟩
          · rw [h1, h2, h3]
            exact .inr ⟨_, rfl, .inr (.inl rfl)⟩
          · rw [h1, h2, h3]
            exact .inr ⟨_, rfl, .inr (.inr (.inl rfl))⟩
          · rw [h1, hq1', hq2]
            refine .inr ⟨_, rfl, .inr (.inr (.inr ⟨by rw [hq1], .inr ?_⟩))⟩
            rw [hq1]
            obtain ⟨d, B, hdB⟩ : ∃ d B, (splitNetloc w).2 = d :: B := by
              cases hd : (splitNetloc w).2 with
              | nil => exact absurd hd hnil
              | cons d B => exact ⟨d, B, rfl⟩
            have hdelim : isNetlocDelim d = true := by
              have hh := List.head_dropWhile_not (fun c => !isNetlocDelim c) w
                (show w.dropWhile (fun c => !isNetlocDelim c) ≠ [] from hnil)
              have hd2 : (w.dropWhile (fun c => !isNetlocDelim c)).head
                  (show w.dropWhile (fun c => !isNetlocDelim c) ≠ [] from hnil) = d := by
                have : (splitNetloc w).2 = w.dropWhile (fun c => !isNetlocDelim c) := rfl
                rw [this] at hdB
                simp [hdB]
              rw [hd2] at hh
              simpa using hh
            have hdmem : d ∈ (splitNetloc w).2 := by
              rw [hdB]
              exact List.mem_cons_self d B
            have hd_slash : d = '/' := by
              have h5 : d = '/' ∨ d = '?' ∨ d = '#' := by
                revert hdelim
                unfold isNetlocDelim
                intro hdelim
                rcases Bool.or_eq_true_iff.mp hdelim with h6 | h6
                · rcases Bool.or_eq_true_iff.mp h6 with h7 | h7
                  · exact .inl (by simpa using h7)
                  · exact .inr (.inl (by simpa using h7))
                · exact .inr (.inr (by simpa using h6))
              rcases h5 with h6 | h6 | h6
              · exact h6
              · exact absurd (h6 ▸ hdmem) hnq
              · exact absurd (h6 ▸ hdmem) hnf
            rw [hdB, hd_slash]
            rfl
  · rw [if_neg hauth] at h
    rw [if_neg (fun hcc => hauth ((take2_append_git _).mp hcc))]
    cases Except.ok.inj h
    rcases splitFQ_append_git (splitScheme (urlClean x)).2 with
      ⟨h1, h2, h3⟩ | ⟨h1, h2, h3⟩ | ⟨h1, hq1, hq1', hq2, hnf, hnq⟩
    · rw [h1, h2, h3]
      exact .inr ⟨_, rfl, .inr (.inl rfl)⟩
    · rw [h1, h2, h3]
      exact .inr ⟨_, rfl, .inr (.inr (.inl rfl))⟩
    · rw [h1, hq1', hq2]
      exact .inr ⟨_, rfl, .inr (.inr (.inr ⟨by rw [hq1], .inl rfl⟩))⟩

theorem pyUrlparse_of_urlsplits {u : List Char} {r : SplitResult}
    (h : urlsplits u = .ok r) :
    pyUrlparse u = if r.scheme ∈ usesParams ∧ ';' ∈ r.path then
      .ok { r with path := (splitParams r.path).1 } else .ok r := by
  unfold pyUrlparse
  rw [h, bind_ok_eq]
  split
  · rfl
  · rfl

theorem splitParams_of_slash {A : List Char} (h : '/' ∈ A) :
    splitParams A =
      if ';' ∈ (A.reverse.takeWhile (· != '/')).reverse then
        (A.take (A.length - ((A.reverse.takeWhile (· != '/')).reverse).length) ++
          ((A.reverse.takeWhile (· != '/')).reverse).takeWhile (· != ';'),
         ((((A.reverse.takeWhile (· != '/')).reverse).dropWhile (· != ';')).tail))
      else (A, []) := by
  unfold splitParams
  rw [if_pos h]

theorem splitParams_fst_ne_nil {A : List Char} (h : '/' ∈ A) :
    (splitParams A).1 ≠ [] := by
  rw [splitParams_of_slash h]
  have hblt : ((A.reverse.takeWhile (· != '/')).reverse).length < A.length := by
    have hle : (A.reverse.takeWhile (· != '/')).length ≤ A.reverse.length :=
      (List.takeWhile_prefix (· != '/')).length_le
    rw [List.length_reverse] at hle
    rw [List.length_reverse]
    rcases lt_or_eq_of_le hle with hlt | heq
    · exact hlt
    · exfalso
      have hpre : A.reverse.takeWhile (· != '/') <+: A.reverse :=
        List.takeWhile_prefix _
      have heq2 : A.reverse.takeWhile (· != '/') = A.reverse :=
        hpre.eq_of_length (by rw [heq, List.length_reverse])
      have hall := List.takeWhile_eq_self_iff.mp heq2 '/' (List.mem_reverse.mpr h)
      simp at hall
  split
  · intro hnil
    rcases List.append_eq_nil.mp hnil with ⟨h1, _⟩
    rcases List.take_eq_nil_iff.mp h1 with h2 | h2
    · omega
    · rw [h2] at h
      exact absurd h (List.not_mem_nil _)
  · intro hnil
    have h2 : A = [] := hnil
    rw [h2] at h
    exact absurd h (List.not_mem_nil _)

theorem pyUrlparse_of_error {u : List Char} {e : String}
    (h : urlsplits u = .error e) : pyUrlparse u = .error e := by
  unfold pyUrlparse
  rw [h]
  rfl

theorem pyUrlparse_append_git {x : List Char} {p : SplitResult}
    (h : pyUrlparse x = .ok p) :
    (∃ e, pyUrlparse (x ++ lit ".git") = .error e) ∨
    ∃ p', pyUrlparse (x ++ lit ".git") = .ok p' ∧
      p'.scheme = p.scheme ∧
      (p'.netloc = p.netloc ∨ p'.netloc = p.netloc ++ lit ".git") ∧
      ((p.netloc = [] ∨ p.path = []) → (p'.netloc = [] ∨ p'.path = [])) := by
  cases hu : urlsplits x with
  | error e =>
    unfold pyUrlparse at h
    rw [hu] at h
    exact Except.noConfusion h
  | ok r =>
    rw [pyUrlparse_of_urlsplits hu] at h
    rcases urlsplits_append_git hu with ⟨e, herr⟩ | ⟨r', hu', hcase⟩
    · exact .inl ⟨e, pyUrlparse_of_error herr⟩
    right
    rw [pyUrlparse_of_urlsplits hu']
    have hsemi : (';' ∈ r.path ++ lit ".git") ↔ ';' ∈ r.path :=
      mem_append_git_iff (by decide)
    rcases hcase with ⟨hr', hpath0⟩ | hr' | hr' | ⟨hr', hside⟩
    · have hss : r'.scheme = r.scheme := by rw [hr']
      have hns : r'.netloc = r.netloc ++ lit ".git" := by rw [hr']
      have hps : r'.path = r.path := by rw [hr']
      have hc : ¬ (r.scheme ∈ usesParams ∧ ';' ∈ r.path) := by
        rw [hpath0]
        exact fun hcc => absurd hcc.2 (List.not_mem_nil _)
      have hc' : ¬ (r'.scheme ∈ usesParams ∧ ';' ∈ r'.path) := by
        rw [hss, hps]
        exact hc
      rw [if_neg hc] at h
      obtain rfl := Except.ok.inj h
      rw [if_neg hc']
      exact ⟨r', rfl, hss, .inr hns, fun _ => .inr (by rw [hps, hpath0])⟩
    · have hss : r'.scheme = r.scheme := by rw [hr']
      have hns : r'.netloc = r.netloc := by rw [hr']
      have hps : r'.path = r.path := by rw [hr']
      by_cases hc : r.scheme ∈ usesParams ∧ ';' ∈ r.path
      · have hc' : r'.scheme ∈ usesParams ∧ ';' ∈ r'.path := by
          rw [hss, hps]
          exact hc
        rw [if_pos hc] at h
        obtain rfl := Except.ok.inj h
        rw [if_pos hc']
        refine ⟨_, rfl, hss, .inl hns, fun hh => ?_⟩
        rcases hh with hh | hh
        · exact .inl (by rw [hns]; exact hh)
        · exact .inr (show (splitParams r'.path).1 = [] from by rw [hps]; exact hh)
      · have hc' : ¬ (r'.scheme ∈ usesParams ∧ ';' ∈ r'.path) := by
          rw [hss, hps]
          exact hc
        rw [if_neg hc] at h
        obtain rfl := Except.ok.inj h
        rw [if_neg hc']
        refine ⟨r', rfl, hss, .inl hns, fun hh => ?_⟩
        rcases hh with hh | hh
        · exact .inl (by rw [hns]; exact hh)
        · exact .inr (by rw [hps]; exact hh)
    · have hss : r'.scheme = r.scheme := by rw [hr']
      have hns : r'.netloc = r.netloc := by rw [hr']
      have hps : r'.path = r.path := by rw [hr']
      by_cases hc : r.scheme ∈ usesParams ∧ ';' ∈ r.path
      · have hc' : r'.scheme ∈ usesParams ∧ ';' ∈ r'.path := by
          rw [hss, hps]
          exact hc
        rw [if_pos hc] at h
        obtain rfl := Except.ok.inj h
        rw [if_pos hc']
        refine ⟨_, rfl, hss, .inl hns, fun hh => ?_⟩
        rcases hh with hh | hh
        · exact .inl (by rw [hns]; exact hh)
        · exact .inr (show (splitParams r'.path).1 = [] from by rw [hps]; exact hh)
      · have hc' : ¬ (r'.scheme ∈ usesParams ∧ ';' ∈ r'.path) := by
          rw [hss, hps]
          exact hc
        rw [if_neg hc] at h
        obtain rfl := Except.ok.inj h
        rw [if_neg hc']
        refine ⟨r', rfl, hss, .inl hns, fun hh => ?_⟩
        rcases hh with hh | hh
        · exact .inl (by rw [hns]; exact hh)
        · exact .inr (by rw [hps]; exact hh)
    · have hss : r'.scheme = r.scheme := by rw [hr']
      have hns : r'.netloc = r.netloc := by rw [hr']
      have hps : r'.path = r.path ++ lit ".git" := by rw [hr']
      by_cases hc : r.scheme ∈ usesParams ∧ ';' ∈ r.path
      · have hc' : r'.scheme ∈ usesParams ∧ ';' ∈ r'.path := by
          rw [hss, hps]
          exact ⟨hc.1, hsemi.mpr hc.2⟩
        rw [if_pos hc] at h
        obtain rfl := Except.ok.inj h
        rw [if_pos hc']
        refine ⟨_, rfl, hss, .inl hns, fun hh => ?_⟩
        rcases hh with hh | hh
        · exact .inl (by rw [hns]; exact hh)
        · rcases hside with hs0 | hs0
          · exact .inl (by rw [hns]; exact hs0)
          · exact absurd (show (splitParams r.path).1 = [] from hh)
              (splitParams_fst_ne_nil (List.mem_of_mem_head? (Option.mem_def.mpr hs0)))
      · have hc' : ¬ (r'.scheme ∈ usesParams ∧ ';' ∈ r'.path) := by
          rw [hss, hps]
          exact fun hcc => hc ⟨hcc.1, hsemi.mp hcc.2⟩
        rw [if_neg hc] at h
        obtain rfl := Except.ok.inj h
        rw [if_neg hc']
        refine ⟨r', rfl, hss, .inl hns, fun hh => ?_⟩
        rcases hh with hh | hh
        · exact .inl (by rw [hns]; exact hh)
        · rcases hside with hs0 | hs0
          · exact .inl (by rw [hns]; exact hs0)
          · rw [hh] at hs0
            exact absurd hs0 (by simp)

theorem startsWithL_append_of {p x : List Char} (t : List Char)
    (h : startsWithL p x) : startsWithL p (x ++ t) := by
  unfold startsWithL at *
  have hlen : p.length ≤ x.length := by
    have h2 := congrArg List.length h
    rw [List.length_take] at h2
    omega
  rw [List.take_append_of_le_length hlen]
  exact h

theorem startsWith_git_ensure {x : List Char} (h : startsWithL (lit "git@") x) :
    startsWithL (lit "git@") (ensure_git_suffix x) := by
  by_cases he : endsWithL (lit ".git") x
  · rw [ensure_of_endsWith he]
    exact h
  · rw [show ensure_git_suffix x = x ++ lit ".git" from by
      unfold ensure_git_suffix
      rw [strip_git_of_not he]]
    exact startsWithL_append_of _ h

theorem not_startsWith_git_append_git {x : List Char}
    (h : ¬ startsWithL (lit "git@") x) :
    ¬ startsWithL (lit "git@") (x ++ lit ".git") := by
  rcases x with _ | ⟨a, _ | ⟨b, _ | ⟨c, _ | ⟨d, t⟩⟩⟩⟩
  · exact (by decide : ¬ startsWithL (lit "git@") ([] ++ lit ".git"))
  · intro h2
    have h3 : a :: '.' :: 'g' :: 'i' :: [] = 'g' :: 'i' :: 't' :: '@' :: [] := h2
    simp at h3
  · intro h2
    have h3 : a :: b :: '.' :: 'g' :: [] = 'g' :: 'i' :: 't' :: '@' :: [] := h2
    simp at h3
  · intro h2
    have h3 : a :: b :: c :: '.' :: [] = 'g' :: 'i' :: 't' :: '@' :: [] := h2
    simp at h3
  · intro h2
    exact h h2

theorem pyLstrip_append_git {p : Char → Bool} {x : List Char} (hp : p '.' = false) :
    pyLstrip p (x ++ lit ".git") = pyLstrip p x ++ lit ".git" := by
  have hgit : (lit ".git").dropWhile p = lit ".git" := by
    rw [show (lit ".git") = '.' :: 'g' :: 'i' :: 't' :: [] from rfl]
    exact List.dropWhile_cons_of_neg (by simp [hp])
  unfold pyLstrip
  rw [List.dropWhile_append]
  split
  · rename_i h0
    rw [List.isEmpty_iff] at h0
    rw [h0, hgit]
    rfl
  · rfl

theorem pyRstrip_append_git {p : Char → Bool} {x : List Char} (hp : p 't' = false) :
    pyRstrip p (x ++ lit ".git") = x ++ lit ".git" := by
  unfold pyRstrip
  rw [List.reverse_append]
  rw [show (lit ".git").reverse = 't' :: 'i' :: 'g' :: '.' :: [] from rfl]
  rw [show ('t' :: 'i' :: 'g' :: '.' :: []) ++ x.reverse =
      't' :: ('i' :: 'g' :: '.' :: x.reverse) from rfl]
  rw [List.dropWhile_cons_of_neg (by simp [hp])]
  rw [show 't' :: ('i' :: 'g' :: '.' :: x.reverse) =
      (lit ".git").reverse ++ x.reverse from rfl]
  rw [← List.reverse_append, List.reverse_reverse]

theorem pyRstrip_decomp (p : Char → Bool) (l : List Char) :
    ∃ S, l = pyRstrip p l ++ S ∧ ∀ c ∈ S, p c = true := by
  refine ⟨(l.reverse.takeWhile p).reverse, ?_, ?_⟩
  · unfold pyRstrip
    rw [← List.reverse_append, List.takeWhile_append_dropWhile, List.reverse_reverse]
  · intro c hc
    rw [List.mem_reverse] at hc
    exact List.mem_takeWhile_imp hc

theorem bareCore_append_git {x : List Char} (h : '/' ∉ bareCore x) :
    '/' ∉ bareCore (x ++ lit ".git") := by
  have hL : pyStrip isPySpace (x ++ lit ".git") = pyLstrip isPySpace x ++ lit ".git" := by
    unfold pyStrip
    rw [pyLstrip_append_git (by decide), pyRstrip_append_git (by decide)]
  have hcore : bareCore (x ++ lit ".git") =
      pyLstrip (· == '/') (pyLstrip isPySpace x) := by
    unfold bareCore
    rw [hL, pyLstrip_append_git (by decide), strip_git_append]
  rw [hcore]
  obtain ⟨S, hLS, hSp⟩ := pyRstrip_decomp isPySpace (pyLstrip isPySpace x)
  have hSnoslash : '/' ∉ S := fun hm => absurd (hSp '/' hm) (by decide)
  have hP : '/' ∉ pyLstrip (· == '/') (pyRstrip isPySpace (pyLstrip isPySpace x)) := by
    intro hm
    exact h (mem_strip_git_of_ne hm (by decide))
  rw [hLS]
  unfold pyLstrip
  rw [List.dropWhile_append]
  split
  · intro hm
    exact hSnoslash ((List.dropWhile_sublist _).subset hm)
  · intro hm
    rcases List.mem_append.mp hm with hm | hm
    · exact hP hm
    · exact hSnoslash hm

theorem urlsplits_clean_auth {u s netl rest2 : List Char}
    (hclean : urlClean u = s ++ ':' :: '/' :: '/' :: (netl ++ rest2))
    (hne : s ≠ []) (hcolon : ':' ∉ s) (halpha : s.head?.any Char.isAlpha = true)
    (hall : s.all isSchemeChar = true)
    (hnet : ∀ c ∈ netl, isNetlocDelim c = false)
    (hrest : rest2 = [] ∨ ∃ d B, rest2 = d :: B ∧ isNetlocDelim d = true)
    (hbr1 : '[' ∉ netl) (hbr2 : ']' ∉ netl) :
    urlsplits u = .ok ⟨s.map Char.toLower, netl,
      (splitQuery (splitFragment rest2).1).1,
      (splitQuery (splitFragment rest2).1).2,
      (splitFragment rest2).2⟩ := by
  have hsplit : splitNetloc (netl ++ rest2) = (netl, rest2) := by
    rcases hrest with rfl | ⟨d, B, rfl, hd⟩
    · rw [List.append_nil]
      exact splitNetloc_all hnet
    · exact splitNetloc_append_delim hnet hd
  simp only [urlsplits]
  rw [hclean, splitScheme_prefix hne hcolon halpha hall]
  have h2 : (('/' :: '/' :: (netl ++ rest2)).take 2 = lit "//") := rfl
  rw [if_pos h2]
  have hdrop : ('/' :: '/' :: (netl ++ rest2)).drop 2 = netl ++ rest2 := rfl
  rw [hdrop, hsplit]
  rw [if_neg (by simp [hbr1, hbr2])]
  rw [show bracketCheckErr (netl, rest2).1 = none from bracketCheckErr_none hbr1]

theorem pyUrlparse_https_github (R : List Char) :
    ∃ p', pyUrlparse (lit "https://github.com/" ++ R) = .ok p' ∧
      p'.scheme = lit "https" ∧ p'.netloc = lit "github.com" := by
  have hclean : urlClean (lit "https://github.com/" ++ R) =
      lit "https" ++ ':' :: '/' :: '/' ::
        (lit "github.com" ++ ('/' :: R.filter (fun c => !isUnsafeUrlByte c))) := by
    unfold urlClean
    rw [show lit "https://github.com/" ++ R = 'h' :: (lit "ttps://github.com/" ++ R) from rfl]
    rw [List.dropWhile_cons_of_neg (by decide)]
    rw [show 'h' :: (lit "ttps://github.com/" ++ R) = lit "https://github.com/" ++ R from rfl]
    rw [List.filter_append]
    rfl
  have hu := urlsplits_clean_auth hclean (show lit "https" ≠ [] from by decide)
    (by decide) (by decide) (by decide)
    (show ∀ c ∈ lit "github.com", isNetlocDelim c = false from by decide)
    (.inr ⟨'/', R.filter (fun c => !isUnsafeUrlByte c), rfl, by decide⟩)
    (by decide) (by decide)
  rw [pyUrlparse_of_urlsplits hu]
  split
  · refine ⟨_, rfl, ?_, rfl⟩
    show List.map Char.toLower (lit "https") = lit "https"
    decide
  · refine ⟨_, rfl, ?_, rfl⟩
    show List.map Char.toLower (lit "https") = lit "https"
    decide

theorem toNat_ofNat_small {m : Nat} (h : m < 55296) : (Char.ofNat m).toNat = m := by
  unfold Char.ofNat
  rw [dif_pos (Or.inl h)]
  rfl

theorem toLower_cases (c : Char) :
    c.toLower = c ∨ (97 ≤ c.toLower.toNat ∧ c.toLower.toNat ≤ 122) := by
  show (if c.toNat ≥ 65 ∧ c.toNat ≤ 90 then Char.ofNat (c.toNat + 32) else c) = c ∨ _
  split
  · rename_i h5
    right
    constructor
    · show 97 ≤ (if c.toNat ≥ 65 ∧ c.toNat ≤ 90 then Char.ofNat (c.toNat + 32) else c).toNat
      rw [if_pos h5, toNat_ofNat_small (by omega)]
      omega
    · show (if c.toNat ≥ 65 ∧ c.toNat ≤ 90 then Char.ofNat (c.toNat + 32) else c).toNat ≤ 122
      rw [if_pos h5, toNat_ofNat_small (by omega)]
      omega
  · left
    rfl

theorem toLower_safe_of_safe {c : Char} (h : isUnsafeUrlByte c = false) :
    isUnsafeUrlByte c.toLower = false := by
  rcases toLower_cases c with h1 | ⟨h1, h2⟩
  · rw [h1]
    exact h
  · unfold isUnsafeUrlByte
    have e1 : (c.toLower == '\t') = false := by
      rw [beq_eq_false_iff_ne]
      intro he
      rw [he] at h1
      exact absurd h1 (by decide)
    have e2 : (c.toLower == '\r') = false := by
      rw [beq_eq_false_iff_ne]
      intro he
      rw [he] at h1
      exact absurd h1 (by decide)
    have e3 : (c.toLower == '\n') = false := by
      rw [beq_eq_false_iff_ne]
      intro he
      rw [he] at h1
      exact absurd h1 (by decide)
    rw [e1, e2, e3]
    rfl

theorem toLower_not_delim {c : Char} (h : isNetlocDelim c = false) :
    isNetlocDelim c.toLower = false := by
  rcases toLower_cases c with h1 | ⟨h1, h2⟩
  · rw [h1]
    exact h
  · unfold isNetlocDelim
    have e1 : (c.toLower == '/') = false := by
      rw [beq_eq_false_iff_ne]
      intro he
      rw [he] at h1
      exact absurd h1 (by decide)
    have e2 : (c.toLower == '?') = false := by
      rw [beq_eq_false_iff_ne]
      intro he
      rw [he] at h1
      exact absurd h1 (by decide)
    have e3 : (c.toLower == '#') = false := by
      rw [beq_eq_false_iff_ne]
      intro he
      rw [he] at h1
      exact absurd h1 (by decide)
    rw [e1, e2, e3]
    rfl

theorem mem_lowerHost {c : Char} {h0 : List Char} (hc : c ∈ lowerHost h0) :
    (∃ c0 ∈ h0, c = c0.toLower) ∨ c ∈ h0 := by
  unfold lowerHost at hc
  rcases List.mem_append.mp hc with hm | hm
  · obtain ⟨c0, hc0, rfl⟩ := List.mem_map.mp hm
    exact .inl ⟨c0, (List.takeWhile_prefix _).sublist.subset hc0, rfl⟩
  · exact .inr ((List.dropWhile_sublist _).subset hm)

theorem lowerHost_ne_nil {h0 : List Char} (hne : h0 ≠ []) : lowerHost h0 ≠ [] := by
  unfold lowerHost
  intro hnil
  rcases List.append_eq_nil.mp hnil with ⟨h1, h2⟩
  rw [List.map_eq_nil_iff] at h1
  have h3 := List.takeWhile_append_dropWhile (p := (· != '%')) (l := h0)
  rw [h1, h2] at h3
  exact hne h3.symm

theorem pyHostname_facts {netloc h0 : List Char} (hh : pyHostname netloc = some h0) :
    h0 ≠ [] ∧ ∀ c ∈ h0, (∃ c0 ∈ netloc, c = c0.toLower) ∨ c ∈ netloc := by
  have hsub : ∀ c ∈ (netloc.reverse.takeWhile (· != '@')).reverse, c ∈ netloc := by
    intro c hc
    rw [List.mem_reverse] at hc
    have h1 := (List.takeWhile_prefix _).sublist.subset hc
    rw [List.mem_reverse] at h1
    exact h1
  simp only [pyHostname] at hh
  by_cases hbr : '[' ∈ (netloc.reverse.takeWhile (· != '@')).reverse
  · rw [if_pos hbr] at hh
    split at hh
    · exact Option.noConfusion hh
    · rename_i hne0
      cases Option.some.inj hh
      refine ⟨lowerHost_ne_nil hne0, ?_⟩
      intro c hc
      rcases mem_lowerHost hc with ⟨c0, hc0, rfl⟩ | hm
      · exact .inl ⟨c0, hsub _ ((List.dropWhile_sublist _).subset
          ((List.tail_sublist _).subset ((List.takeWhile_prefix _).sublist.subset hc0))), rfl⟩
      · exact .inr (hsub _ ((List.dropWhile_sublist _).subset
          ((List.tail_sublist _).subset ((List.takeWhile_prefix _).sublist.subset hm))))
  · rw [if_neg hbr] at hh
    split at hh
    · exact Option.noConfusion hh
    · rename_i hne0
      cases Option.some.inj hh
      refine ⟨lowerHost_ne_nil hne0, ?_⟩
      intro c hc
      rcases mem_lowerHost hc with ⟨c0, hc0, rfl⟩ | hm
      · exact .inl ⟨c0, hsub _ ((List.takeWhile_prefix _).sublist.subset hc0), rfl⟩
      · exact .inr (hsub _ ((List.takeWhile_prefix _).sublist.subset hm))

theorem urlClean_safe_chars {c : Char} {l : List Char} (hc : c ∈ urlClean l) :
    isUnsafeUrlByte c = false := by
  unfold urlClean at hc
  have h1 := List.of_mem_filter hc
  simpa using h1

theorem mem_splitScheme_snd {c : Char} {u : List Char}
    (hc : c ∈ (splitScheme u).2) : c ∈ u := by
  rcases splitScheme_snd_cases u with h1 | h1
  · rw [h1] at hc
    exact hc
  · rw [h1] at hc
    exact (List.dropWhile_sublist _).subset ((List.tail_sublist _).subset hc)

theorem mem_splitFragment_fst {c : Char} {l : List Char}
    (hc : c ∈ (splitFragment l).1) : c ∈ l := by
  unfold splitFragment at hc
  split at hc
  · exact (List.takeWhile_prefix _).sublist.subset hc
  · exact hc

theorem mem_splitQuery_fst {c : Char} {l : List Char}
    (hc : c ∈ (splitQuery l).1) : c ∈ l := by
  unfold splitQuery at hc
  split at hc
  · exact (List.takeWhile_prefix _).sublist.subset hc
  · exact hc

theorem mem_splitParams_fst {c : Char} {A : List Char}
    (hc : c ∈ (splitParams A).1) : c ∈ A := by
  by_cases hA : '/' ∈ A
  · rw [splitParams_of_slash hA] at hc
    split at hc
    · rcases List.mem_append.mp hc with hm | hm
      · exact List.take_subset _ _ hm
      · have h1 := (List.takeWhile_prefix _).sublist.subset hm
        rw [List.mem_reverse] at h1
        have h2 := (List.takeWhile_prefix _).sublist.subset h1
        rw [List.mem_reverse] at h2
        exact h2
    · exact hc
  · unfold splitParams at hc
    rw [if_neg hA] at hc
    exact (List.takeWhile_prefix _).sublist.subset hc

theorem urlsplits_fields_clean {x : List Char} {r : SplitResult}
    (h : urlsplits x = .ok r) :
    (∀ c ∈ r.netloc, isUnsafeUrlByte c = false ∧ isNetlocDelim c = false) ∧
    (∀ c ∈ r.path, isUnsafeUrlByte c = false) := by
  simp only [urlsplits] at h
  split at h
  · split at h
    · exact Except.noConfusion h
    · split at h
      · exact Except.noConfusion h
      · cases Except.ok.inj h
        constructor
        · intro c hc
          have hdel := List.mem_takeWhile_imp hc
          have hmem : c ∈ urlClean x :=
            mem_splitScheme_snd (List.drop_subset _ _
              ((List.takeWhile_prefix _).sublist.subset hc))
          exact ⟨urlClean_safe_chars hmem, by simpa using hdel⟩
        · intro c hc
          have h1 := mem_splitFragment_fst (mem_splitQuery_fst hc)
          have h2 : c ∈ urlClean x :=
            mem_splitScheme_snd (List.drop_subset _ _
              ((List.dropWhile_sublist _).subset h1))
          exact urlClean_safe_chars h2
  · cases Except.ok.inj h
    constructor
    · intro c hc
      exact absurd hc (List.not_mem_nil _)
    · intro c hc
      have h1 := mem_splitFragment_fst (mem_splitQuery_fst hc)
      exact urlClean_safe_chars (mem_splitScheme_snd h1)

theorem pyUrlparse_fields_clean {x : List Char} {p : SplitResult}
    (h : pyUrlparse x = .ok p) :
    (∀ c ∈ p.netloc, isUnsafeUrlByte c = false ∧ isNetlocDelim c = false) ∧
    (∀ c ∈ p.path, isUnsafeUrlByte c = false) := by
  cases hu : urlsplits x with
  | error e =>
    unfold pyUrlparse at h
    rw [hu] at h
    exact Except.noConfusion h
  | ok r =>
    obtain ⟨hn, hp2⟩ := urlsplits_fields_clean hu
    rw [pyUrlparse_of_urlsplits hu] at h
    split at h
    · cases Except.ok.inj h
      exact ⟨hn, fun c hc => hp2 c (mem_splitParams_fst hc)⟩
    · cases Except.ok.inj h
      exact ⟨hn, hp2⟩

theorem urlClean_eq_self {l : List Char}
    (hhead : ∀ c, l.head? = some c → isC0OrSpace c = false)
    (hall : ∀ c ∈ l, isUnsafeUrlByte c = false) : urlClean l = l := by
  unfold urlClean
  have h1 : l.dropWhile isC0OrSpace = l := by
    cases l with
    | nil => rfl
    | cons a t => exact List.dropWhile_cons_of_neg (by simp [hhead a rfl])
  rw [h1, List.filter_eq_self.mpr (fun c hc => by simp [hall c hc])]

theorem urlsplits_https_host {host T : List Char}
    (hnd : ∀ c ∈ host, isNetlocDelim c = false)
    (hcl : urlClean (lit "https" ++ ':' :: '/' :: '/' :: (host ++ '/' :: T)) =
      lit "https" ++ ':' :: '/' :: '/' :: (host ++ '/' :: T)) :
    (∃ e, urlsplits (lit "https" ++ ':' :: '/' :: '/' :: (host ++ '/' :: T)) = .error e) ∨
    ∃ r, urlsplits (lit "https" ++ ':' :: '/' :: '/' :: (host ++ '/' :: T)) = .ok r ∧
      r.scheme = lit "https" ∧ r.netloc = host := by
  have hsplit : splitNetloc (host ++ '/' :: T) = (host, '/' :: T) :=
    splitNetloc_append_delim hnd (by decide)
  simp only [urlsplits]
  rw [hcl, splitScheme_prefix (show lit "https" ≠ [] from by decide)
    (by decide) (by decide) (by decide)]
  have h2 : (('/' :: '/' :: (host ++ '/' :: T)).take 2 = lit "//") := rfl
  rw [if_pos h2]
  have hdrop : ('/' :: '/' :: (host ++ '/' :: T)).drop 2 = host ++ '/' :: T := rfl
  rw [hdrop, hsplit]
  by_cases hbal : ('[' ∈ host ∧ ']' ∉ host) ∨ (']' ∈ host ∧ '[' ∉ host)
  · left
    exact ⟨_, by rw [if_pos hbal]⟩
  · rw [if_neg hbal]
    rw [show ((host, ('/' :: T : List Char)) : List Char × List Char).1 = host from rfl]
    cases hbc : bracketCheckErr host with
    | some e0 =>
      left
      exact ⟨e0, rfl⟩
    | none =>
      right
      refine ⟨_, rfl, ?_, rfl⟩
      show List.map Char.toLower (lit "https") = lit "https"
      decide

theorem to_https_reparse {host T : List Char}
    (hnd : ∀ c ∈ host, isNetlocDelim c = false) (hne : host ≠ [])
    (hcl : urlClean (lit "https" ++ ':' :: '/' :: '/' :: (host ++ '/' :: T)) =
      lit "https" ++ ':' :: '/' :: '/' :: (host ++ '/' :: T)) :
    (∃ e, to_https_url (lit "https" ++ ':' :: '/' :: '/' :: (host ++ '/' :: T)) = .error e) ∨
    to_https_url (lit "https" ++ ':' :: '/' :: '/' :: (host ++ '/' :: T)) =
      .ok (ensure_git_suffix (lit "https" ++ ':' :: '/' :: '/' :: (host ++ '/' :: T))) := by
  have hg : ¬ startsWithL (lit "git@")
      (lit "https" ++ ':' :: '/' :: '/' :: (host ++ '/' :: T)) := by
    intro hc
    exact absurd (show (lit "http" : List Char) = lit "git@" from hc) (by decide)
  rcases urlsplits_https_host hnd hcl with ⟨e, herr⟩ | ⟨r, hok, hsch, hnet⟩
  · exact .inl ⟨e, to_https_url_err hg (pyUrlparse_of_error herr)⟩
  · by_cases hcnd : r.scheme ∈ usesParams ∧ ';' ∈ r.path
    · right
      have hp' : pyUrlparse (lit "https" ++ ':' :: '/' :: '/' :: (host ++ '/' :: T)) =
          .ok { r with path := (splitParams r.path).1 } := by
        rw [pyUrlparse_of_urlsplits hok, if_pos hcnd]
      exact to_https_url_http hg hp'
        (show ¬ r.scheme = lit "ssh" from by rw [hsch]; decide)
        ⟨show r.netloc ≠ [] from by rw [hnet]; exact hne,
         .inr (show r.scheme = lit "https" from hsch)⟩
    · right
      have hp' : pyUrlparse (lit "https" ++ ':' :: '/' :: '/' :: (host ++ '/' :: T)) =
          .ok r := by
        rw [pyUrlparse_of_urlsplits hok, if_neg hcnd]
      exact to_https_url_http hg hp'
        (show ¬ r.scheme = lit "ssh" from by rw [hsch]; decide)
        ⟨show r.netloc ≠ [] from by rw [hnet]; exact hne, .inr hsch⟩

theorem to_ssh_url_fix {y : List Char} (hg : startsWithL (lit "git@") y)
    (he : endsWithL (lit ".git") y) : to_ssh_url y = .ok y := by
  rw [to_ssh_url_git hg, ensure_of_endsWith he]

theorem ssh_fix_inj {y z : List Char} (hg : startsWithL (lit "git@") y)
    (he : endsWithL (lit ".git") y) (hz : to_ssh_url y = .ok z) : z = y := by
  rw [to_ssh_url_fix hg he] at hz
  exact (Except.ok.inj hz).symm

theorem to_ssh_idem {x y z : List Char} (h : to_ssh_url x = .ok y)
    (hz : to_ssh_url y = .ok z) : z = y := by
  by_cases hg : startsWithL (lit "git@") x
  · rw [to_ssh_url_git hg] at h
    obtain rfl := Except.ok.inj h
    rw [to_ssh_url_fix (startsWith_git_ensure hg) (ensure_endsWith x)] at hz
    exact (Except.ok.inj hz).symm
  · cases hp : pyUrlparse x with
    | error e =>
      rw [to_ssh_url_err hg hp] at h
      exact Except.noConfusion h
    | ok p =>
      by_cases hs : p.scheme = lit "ssh"
      · rw [to_ssh_url_sshscheme hg hp hs] at h
        obtain rfl := Except.ok.inj h
        exact ssh_fix_inj (startsWithL_of_append _ _) (endsWithL_append _ _) hz
      · by_cases hn : p.netloc ≠ [] ∧ p.path ≠ []
        · rw [to_ssh_url_netloc hg hp hs hn] at h
          obtain rfl := Except.ok.inj h
          exact ssh_fix_inj (startsWithL_of_append _ _) (endsWithL_append _ _) hz
        · by_cases hsl : '/' ∈ bareCore x
          · rw [to_ssh_url_bare hg hp hs hn hsl] at h
            obtain rfl := Except.ok.inj h
            exact ssh_fix_inj (startsWithL_of_append _ _) (endsWithL_append _ _) hz
          · rw [to_ssh_url_fallback hg hp hs hn hsl] at h
            obtain rfl := Except.ok.inj h
            by_cases he : endsWithL (lit ".git") x
            · rw [ensure_of_endsWith he] at hz ⊢
              rw [to_ssh_url_fallback hg hp hs hn hsl, ensure_of_endsWith he] at hz
              exact (Except.ok.inj hz).symm
            · have hxg : ensure_git_suffix x = x ++ lit ".git" := by
                unfold ensure_git_suffix
                rw [strip_git_of_not he]
              rw [hxg] at hz ⊢
              have hg2 : ¬ startsWithL (lit "git@") (x ++ lit ".git") :=
                not_startsWith_git_append_git hg
              rcases pyUrlparse_append_git hp with ⟨e, herr⟩ | ⟨p', hp', hss, hnl, htr⟩
              · rw [to_ssh_url_err hg2 herr] at hz
                exact Except.noConfusion hz
              · have hs2 : ¬ p'.scheme = lit "ssh" := by
                  rw [hss]
                  exact hs
                have hd : p.netloc = [] ∨ p.path = [] := by
                  rcases not_and_or.mp hn with h0 | h0
                  · exact .inl (not_not.mp h0)
                  · exact .inr (not_not.mp h0)
                have hn2 : ¬ (p'.netloc ≠ [] ∧ p'.path ≠ []) := by
                  intro hcc
                  rcases htr hd with h0 | h0
                  · exact hcc.1 h0
                  · exact hcc.2 h0
                have hsl2 : '/' ∉ bareCore (x ++ lit ".git") := bareCore_append_git hsl
                rw [to_ssh_url_fallback hg2 hp' hs2 hn2 hsl2,
                    ensure_of_endsWith (endsWithL_append _ _)] at hz
                exact (Except.ok.inj hz).symm

theorem to_https_idem {x y z : List Char}
    (hg : ¬ startsWithL (lit "git@") x)
    (h : to_https_url x = .ok y) (hz : to_https_url y = .ok z) : z = y := by
  cases hp : pyUrlparse x with
  | error e =>
    rw [to_https_url_err hg hp] at h
    exact Except.noConfusion h
  | ok p =>
    by_cases hs : p.scheme = lit "ssh"
    · by_cases hn : p.netloc ≠ [] ∧ p.path ≠ []
      · rw [to_https_url_sshscheme_netloc hg hp hs hn] at h
        obtain rfl := Except.ok.inj h
        have hshape : lit "https://" ++ ((pyHostname p.netloc).getD p.netloc) ++ lit "/" ++
            strip_git_suffix (pyLstrip (· == '/') p.path) ++ lit ".git" =
            lit "https" ++ ':' :: '/' :: '/' ::
              (((pyHostname p.netloc).getD p.netloc) ++
                '/' :: (strip_git_suffix (pyLstrip (· == '/') p.path) ++ lit ".git")) := by
          simp only [List.append_assoc]
          rfl
        rw [hshape] at hz ⊢
        obtain ⟨hnclean, hpclean⟩ := pyUrlparse_fields_clean hp
        have hhostne : (pyHostname p.netloc).getD p.netloc ≠ [] := by
          cases hph : pyHostname p.netloc with
          | none =>
            exact hn.1
          | some h0 =>
            exact (pyHostname_facts hph).1
        have hhostfacts : ∀ c ∈ (pyHostname p.netloc).getD p.netloc,
            isUnsafeUrlByte c = false ∧ isNetlocDelim c = false := by
          cases hph : pyHostname p.netloc with
          | none =>
            exact fun c hc => hnclean c hc
          | some h0 =>
            intro c hc
            rcases (pyHostname_facts hph).2 c hc with ⟨c0, hc0, rfl⟩ | hm
            · exact ⟨toLower_safe_of_safe (hnclean c0 hc0).1,
                toLower_not_delim (hnclean c0 hc0).2⟩
            · exact hnclean c hm
        have hcoreclean : ∀ c ∈ strip_git_suffix (pyLstrip (· == '/') p.path),
            isUnsafeUrlByte c = false := by
          intro c hc
          exact hpclean c ((List.dropWhile_sublist _).subset (mem_of_mem_strip_git hc))
        have hcl : urlClean (lit "https" ++ ':' :: '/' :: '/' ::
            (((pyHostname p.netloc).getD p.netloc) ++
              '/' :: (strip_git_suffix (pyLstrip (· == '/') p.path) ++ lit ".git"))) =
            lit "https" ++ ':' :: '/' :: '/' ::
              (((pyHostname p.netloc).getD p.netloc) ++
                '/' :: (strip_git_suffix (pyLstrip (· == '/') p.path) ++ lit ".git")) := by
          refine urlClean_eq_self (fun c hc => ?_) ?_
          · have h5 : ('h' : Char) = c := Option.some.inj hc
            rw [← h5]
            decide
          · exact all_append (P := fun c => isUnsafeUrlByte c = false) (by decide)
              (all_cons (by decide) (all_cons (by decide) (all_cons (by decide)
                (all_append (fun c hc => (hhostfacts c hc).1)
                  (all_cons (by decide)
                    (all_append hcoreclean (by decide)))))))
        rcases to_https_reparse (fun c hc => (hhostfacts c hc).2) hhostne hcl with
          ⟨e, herr⟩ | hok
        · rw [herr] at hz
          exact Except.noConfusion hz
        · rw [hok, ensure_of_endsWith (endsWithL_iff.mpr
            ⟨lit "https" ++ ':' :: '/' :: '/' ::
              (((pyHostname p.netloc).getD p.netloc) ++
                '/' :: strip_git_suffix (pyLstrip (· == '/') p.path)), by simp⟩)] at hz
          exact (Except.ok.inj hz).symm
      · rw [to_https_url_sshscheme_fallback hg hp hs hn] at h
        obtain rfl := Except.ok.inj h
        by_cases he : endsWithL (lit ".git") x
        · rw [ensure_of_endsWith he] at hz ⊢
          rw [to_https_url_sshscheme_fallback hg hp hs hn, ensure_of_endsWith he] at hz
          exact (Except.ok.inj hz).symm
        · have hxg : ensure_git_suffix x = x ++ lit ".git" := by
            unfold ensure_git_suffix
            rw [strip_git_of_not he]
          rw [hxg] at hz ⊢
          have hg2 : ¬ startsWithL (lit "git@") (x ++ lit ".git") :=
            not_startsWith_git_append_git hg
          rcases pyUrlparse_append_git hp with ⟨e, herr⟩ | ⟨p', hp', hss, hnl, htr⟩
          · rw [to_https_url_err hg2 herr] at hz
            exact Except.noConfusion hz
          · have hs2 : p'.scheme = lit "ssh" := by
              rw [hss]
              exact hs
            have hd : p.netloc = [] ∨ p.path = [] := by
              rcases not_and_or.mp hn with h0 | h0
              · exact .inl (not_not.mp h0)
              · exact .inr (not_not.mp h0)
            have hn2 : ¬ (p'.netloc ≠ [] ∧ p'.path ≠ []) := by
              intro hcc
              rcases htr hd with h0 | h0
              · exact hcc.1 h0
              · exact hcc.2 h0
            rw [to_https_url_sshscheme_fallback hg2 hp' hs2 hn2,
                ensure_of_endsWith (endsWithL_append _ _)] at hz
            exact (Except.ok.inj hz).symm
    · by_cases hn : p.netloc ≠ [] ∧ (p.scheme = lit "http" ∨ p.scheme = lit "https")
      · rw [to_https_url_http hg hp hs hn] at h
        obtain rfl := Except.ok.inj h
        by_cases he : endsWithL (lit ".git") x
        · rw [ensure_of_endsWith he] at hz ⊢
          rw [to_https_url_http hg hp hs hn, ensure_of_endsWith he] at hz
          exact (Except.ok.inj hz).symm
        · have hxg : ensure_git_suffix x = x ++ lit ".git" := by
            unfold ensure_git_suffix
            rw [strip_git_of_not he]
          rw [hxg] at hz ⊢
          have hg2 : ¬ startsWithL (lit "git@") (x ++ lit ".git") :=
            not_startsWith_git_append_git hg
          rcases pyUrlparse_append_git hp with ⟨e, herr⟩ | ⟨p', hp', hss, hnl, htr⟩
          · rw [to_https_url_err hg2 herr] at hz
            exact Except.noConfusion hz
          · have hs2 : ¬ p'.scheme = lit "ssh" := by
              rw [hss]
              exact hs
            have hn2 : p'.netloc ≠ [] ∧
                (p'.scheme = lit "http" ∨ p'.scheme = lit "https") := by
              refine ⟨?_, by rw [hss]; exact hn.2⟩
              rcases hnl with h0 | h0
              · rw [h0]
                exact hn.1
              · rw [h0]
                intro hcc
                rcases List.append_eq_nil.mp hcc with ⟨_, h2⟩
                exact absurd h2 (by decide)
            rw [to_https_url_http hg2 hp' hs2 hn2,
                ensure_of_endsWith (endsWithL_append _ _)] at hz
            exact (Except.ok.inj hz).symm
      · by_cases hsl : '/' ∈ bareCore x
        · rw [to_https_url_bare hg hp hs hn hsl] at h
          obtain rfl := Except.ok.inj h
          rw [List.append_assoc] at hz ⊢
          obtain ⟨p', hp', hsch, hnet⟩ := pyUrlparse_https_github (bareCore x ++ lit ".git")
          have hg2 : ¬ startsWithL (lit "git@")
              (lit "https://github.com/" ++ (bareCore x ++ lit ".git")) := by
            intro hc
            have hc2 : (lit "https://github.com/" ++ (bareCore x ++ lit ".git")).take 4 =
                lit "git@" := hc
            rw [List.take_append_of_le_length (by decide)] at hc2
            exact absurd hc2 (by decide)
          have hs2 : ¬ p'.scheme = lit "ssh" := by
            rw [hsch]
            decide
          have hn2 : p'.netloc ≠ [] ∧
              (p'.scheme = lit "http" ∨ p'.scheme = lit "https") := by
            refine ⟨?_, .inr hsch⟩
            rw [hnet]
            decide
          rw [to_https_url_http hg2 hp' hs2 hn2,
              ensure_of_endsWith (endsWithL_iff.mpr
                ⟨lit "https://github.com/" ++ bareCore x, by simp⟩)] at hz
          exact (Except.ok.inj hz).symm
        · rw [to_https_url_fallback hg hp hs hn hsl] at h
          obtain rfl := Except.ok.inj h
          by_cases he : endsWithL (lit ".git") x
          · rw [ensure_of_endsWith he] at hz ⊢
            rw [to_https_url_fallback hg hp hs hn hsl, ensure_of_endsWith he] at hz
            exact (Except.ok.inj hz).symm
          · have hxg : ensure_git_suffix x = x ++ lit ".git" := by
              unfold ensure_git_suffix
              rw [strip_git_of_not he]
            rw [hxg] at hz ⊢
            have hg2 : ¬ startsWithL (lit "git@") (x ++ lit ".git") :=
              not_startsWith_git_append_git hg
            rcases pyUrlparse_append_git hp with ⟨e, herr⟩ | ⟨p', hp', hss, hnl, htr⟩
            · rw [to_https_url_err hg2 herr] at hz
              exact Except.noConfusion hz
            · have hs2 : ¬ p'.scheme = lit "ssh" := by
                rw [hss]
                exact hs
              by_cases hn2 : p'.netloc ≠ [] ∧
                  (p'.scheme = lit "http" ∨ p'.scheme = lit "https")
              · rw [to_https_url_http hg2 hp' hs2 hn2,
                    ensure_of_endsWith (endsWithL_append _ _)] at hz
                exact (Except.ok.inj hz).symm
              · have hsl2 : '/' ∉ bareCore (x ++ lit ".git") := bareCore_append_git hsl
                rw [to_https_url_fallback hg2 hp' hs2 hn2 hsl2,
                    ensure_of_endsWith (endsWithL_append _ _)] at hz
                exact (Except.ok.inj hz).symm

/-! ## Claims -/

/-- C1 (counterexample): the claim that whitespace surrounding the whole
reference is trimmed before any other processing fails for `to_ssh_url`:
the scp-style reference with leading whitespace
`"  git@github.com:acme/widget.git"` is not normalized like the trimmed
reference (the raw `startswith("git@")` check misses it and the bare
branch mangles it). -/
theorem claim_C1_counterexample :
    to_ssh_url (lit "  git@github.com:acme/widget.git") ≠
      to_ssh_url (pyStrip isPySpace (lit "  git@github.com:acme/widget.git")) := by
  decide

/-- C1 (amended): only `https_repo_full_name` trims surrounding whitespace
before any other processing (it is invariant under pre-stripping);
`to_ssh_url` and `to_https_url` do not trim the whole reference first, and
the scp-style example with leading whitespace is normalized differently
from its trimmed form by both. -/
theorem claim_C1_theorem :
    (∀ x, https_repo_full_name (pyStrip isPySpace x) = https_repo_full_name x) ∧
    to_https_url (lit "  git@github.com:acme/widget.git") ≠
      to_https_url (pyStrip isPySpace (lit "  git@github.com:acme/widget.git")) ∧
    to_ssh_url (lit "  git@github.com:acme/widget.git") ≠
      to_ssh_url (pyStrip isPySpace (lit "  git@github.com:acme/widget.git")) := by
  refine ⟨fun x => ?_, by decide, by decide⟩
  unfold https_repo_full_name
  rw [pyStrip_idem]

/-- C2 (counterexample): `https_repo_full_name` of a URL with no path
component is not `None`: for `"https://github.com"` the netloc-and-path
branch is skipped (empty path) and the bare branch returns the raw
reference. -/
theorem claim_C2_counterexample :
    https_repo_full_name (lit "https://github.com") =
      .ok (some (lit "https://github.com")) ∧
    https_repo_full_name (lit "https://github.com") ≠ .ok none := by
  decide

/-- C2 (amended): `https_repo_full_name` returns `"owner/name"` for the
accepted forms and `None` when the path portion strips to empty for inputs
that reach a branch which strips a path (e.g. `""` or
`"https://github.com/"`); but a URL with netloc and *no* path component
falls through to the bare branch and yields the raw reference, not `None`. -/
theorem claim_C2_theorem :
    https_repo_full_name (lit "https://github.com/acme/widget.git") =
      .ok (some (lit "acme/widget")) ∧
    https_repo_full_name (lit "git@github.com:acme/widget.git") =
      .ok (some (lit "acme/widget")) ∧
    https_repo_full_name (lit "ssh://git@github.com/acme/widget.git") =
      .ok (some (lit "acme/widget")) ∧
    https_repo_full_name (lit "acme/widget") = .ok (some (lit "acme/widget")) ∧
    https_repo_full_name (lit "") = .ok none ∧
    https_repo_full_name (lit "https://github.com/") = .ok none ∧
    https_repo_full_name (lit "https://github.com") =
      .ok (some (lit "https://github.com")) := by
  decide

/-- C8 (counterexample): the result of `ensure_git_suffix` does not always
end in exactly one `.git` suffix: on `"a.git.git"` only one trailing copy
is stripped before re-appending, so the result still ends in `".git.git"`. -/
theorem claim_C8_counterexample :
    ensure_git_suffix (lit "a.git.git") = lit "a.git.git" ∧
    endsWithL (lit ".git.git") (ensure_git_suffix (lit "a.git.git")) := by
  decide

/-- C8 (amended): `stripGitSuffix (ensureGitSuffix x) = stripGitSuffix x`
for every `x`; `ensureGitSuffix` strips one literal trailing `.git` and
appends one, so its result always ends with `.git` (though it may end with
several stacked `.git` suffixes when the input does). -/
theorem claim_C8_theorem :
    (∀ x, strip_git_suffix (ensure_git_suffix x) = strip_git_suffix x) ∧
    (∀ x, endsWithL (lit ".git") (ensure_git_suffix x)) :=
  ⟨strip_git_ensure, ensure_endsWith⟩

/-- C9: building a repository URL from separate owner and name fields
sanitizes the name by trimming surrounding whitespace and replacing each
internal space with a dash: owner `"acme"` and name `" My Repo "` give
`https://github.com/acme/My-Repo.git`, and every successful
`build_repo_url` uses the sanitized name segment. -/
theorem claim_C9_theorem :
    build_repo_url (lit "acme") (lit " My Repo ") =
      .ok (lit "https://github.com/acme/My-Repo.git") ∧
    ∀ o n, o ≠ [] → sanitize_repo_name n ≠ [] →
      build_repo_url o n =
        .ok (lit "https://github.com/" ++ o ++ lit "/" ++
             sanitize_repo_name n ++ lit ".git") := by
  refine ⟨by decide, fun o n ho hn => ?_⟩
  unfold build_repo_url
  rw [if_neg]
  push_neg
  exact ⟨ho, hn⟩

/-- C9 (witness): the general clause of `claim_C9_theorem` applied at
owner `"acme"`, name `"widget"`. -/
theorem claim_C9_witness :
    build_repo_url (lit "acme") (lit "widget") =
      .ok (lit "https://github.com/" ++ lit "acme" ++ lit "/" ++
           sanitize_repo_name (lit "widget") ++ lit ".git") :=
  claim_C9_theorem.2 (lit "acme") (lit "widget") (by decide) (by decide)

/-- C10: on the empty string the conversion functions return the suffix
fallback rather than an error: `to_ssh_url "" = ".git"`,
`to_https_url "" = ".git"`, and `https_repo_full_name "" = None`; none of
them signals the empty reference with an error value. -/
theorem claim_C10_theorem :
    to_ssh_url (lit "") = .ok (lit ".git") ∧
    to_https_url (lit "") = .ok (lit ".git") ∧
    https_repo_full_name (lit "") = .ok none := by
  decide

/-- C3 (amended): `strip_git_suffix` and `ensure_git_suffix` are plain
total functions; `is_ssh_url`, `to_ssh_url`, `to_https_url` and
`https_repo_full_name` succeed exactly when the `git@` prefix shortcut
applies or `urlparse` accepts the (for `https_repo_full_name`, stripped)
input; every error any of them propagates originates in `urlsplit`'s
netloc validation and is one of `"Invalid IPv6 URL"` (an authority with
an unbalanced bracket), `"IPvFuture address is invalid"`,
`"An IPv4 address cannot be in brackets"`, or
`"<repr(host)> does not appear to be an IPv4 or IPv6 address"` for a
balanced bracketed host that is not a valid IP address. -/
theorem claim_C3_theorem :
    (∀ x, (∃ b, is_ssh_url x = .ok b) ↔
      (startsWithL (lit "git@") x ∨ ∃ p, pyUrlparse x = .ok p)) ∧
    (∀ x, (∃ v, to_ssh_url x = .ok v) ↔
      (startsWithL (lit "git@") x ∨ ∃ p, pyUrlparse x = .ok p)) ∧
    (∀ x, (∃ v, to_https_url x = .ok v) ↔
      (startsWithL (lit "git@") x ∨ ∃ p, pyUrlparse x = .ok p)) ∧
    (∀ x, (∃ v, https_repo_full_name x = .ok v) ↔
      (startsWithL (lit "git@") (pyStrip isPySpace x) ∨
        ∃ p, pyUrlparse (pyStrip isPySpace x) = .ok p)) ∧
    (∀ x e, pyUrlparse x = .error e → urlsplits x = .error e ∧
      (e = "Invalid IPv6 URL" ∨ e = "IPvFuture address is invalid" ∨
       e = "An IPv4 address cannot be in brackets" ∨
       ∃ h0, e = notIpMsg h0)) :=
  ⟨fun _ => ⟨is_ssh_url_guard, is_ssh_url_ok_of⟩,
   fun _ => ⟨to_ssh_url_guard, to_ssh_url_ok_of⟩,
   fun _ => ⟨to_https_url_guard, to_https_url_ok_of⟩,
   fun _ => ⟨https_repo_full_name_guard, https_repo_full_name_ok_of⟩,
   fun _ _ h => ⟨pyUrlparse_error_urlsplits h, pyUrlparse_error_char h⟩⟩

/-- C3 (counterexample): the transformation functions are not total on all
strings: an authority with an unclosed bracket makes the embedded
`urlparse` raise `ValueError("Invalid IPv6 URL")`, and a balanced
bracketed authority whose host is not a valid IP address makes
`_check_bracketed_host` raise the not-an-IP-address ValueError (e.g. on
`"ssh://[abc]/x"`); both propagate out of `is_ssh_url`, `to_ssh_url`,
`to_https_url` and `https_repo_full_name`. -/
theorem claim_C3_counterexample :
    (is_ssh_url (lit "http://[a") = .error "Invalid IPv6 URL" ∧
     to_ssh_url (lit "http://[a") = .error "Invalid IPv6 URL" ∧
     to_https_url (lit "http://[a") = .error "Invalid IPv6 URL" ∧
     https_repo_full_name (lit "http://[a") = .error "Invalid IPv6 URL") ∧
    (notIpMsg (lit "abc") =
       "'abc' does not appear to be an IPv4 or IPv6 address" ∧
     is_ssh_url (lit "ssh://[abc]/x") = .error (notIpMsg (lit "abc")) ∧
     to_ssh_url (lit "ssh://[abc]/x") = .error (notIpMsg (lit "abc")) ∧
     to_https_url (lit "ssh://[abc]/x") = .error (notIpMsg (lit "abc")) ∧
     https_repo_full_name (lit "ssh://[abc]/x") =
       .error (notIpMsg (lit "abc"))) := by
  decide

/-- C3 (witness): the characterization is inhabited: `to_ssh_url` succeeds
on the bare reference `"acme/widget"`, and the error raised on
`"http://[a"` originates in `urlsplit`. -/
theorem claim_C3_witness :
    (∃ v, to_ssh_url (lit "acme/widget") = .ok v) ∧
    urlsplits (lit "http://[a") = .error "Invalid IPv6 URL" :=
  ⟨(claim_C3_theorem.2.1 (lit "acme/widget")).mpr
      (.inr ⟨⟨[], [], lit "acme/widget", [], []⟩, by decide⟩),
   (claim_C3_theorem.2.2.2.2 (lit "http://[a") "Invalid IPv6 URL"
      (by decide)).1⟩

/-- C4 (counterexample): neither conversion is idempotent on every input
where it succeeds twice or even succeeds twice at all.  On `"git@:p"` the
extracted host is empty, `to_https_url` returns `"https:///p.git"`, whose
netloc parses as empty, so a second application rebuilds it through the
bare branch into a different string; and on `"//]a[::1"` both conversions
return `"//]a[::1.git"` through the suffix fallback, but the second
application re-parses a netloc whose balanced brackets now enclose the
host `"::1.git"`, which is not a valid IP address, so it raises. -/
theorem claim_C4_counterexample :
    (to_https_url (lit "git@:p") = .ok (lit "https:///p.git") ∧
     to_https_url (lit "https:///p.git") ≠ .ok (lit "https:///p.git")) ∧
    (to_ssh_url (lit "//]a[::1") = .ok (lit "//]a[::1.git") ∧
     to_ssh_url (lit "//]a[::1.git") = .error (notIpMsg (lit "::1.git")) ∧
     to_https_url (lit "//]a[::1") = .ok (lit "//]a[::1.git") ∧
     to_https_url (lit "//]a[::1.git") = .error (notIpMsg (lit "::1.git")) ∧
     notIpMsg (lit "::1.git") =
       "'::1.git' does not appear to be an IPv4 or IPv6 address") := by
  decide

/-- C4 (amended): whenever a second application of `to_ssh_url` to a
first result succeeds at all, it returns the result unchanged; the same
holds for `to_https_url` on every input that does not begin with `git@`
(the counterexample `"git@:p"` shows the exclusion is needed, and
`"//]a[::1"` shows the second application can genuinely fail). -/
theorem claim_C4_theorem :
    (∀ x y z, to_ssh_url x = .ok y → to_ssh_url y = .ok z → z = y) ∧
    (∀ x y z, ¬ startsWithL (lit "git@") x →
      to_https_url x = .ok y → to_https_url y = .ok z → z = y) :=
  ⟨fun _ _ _ h hz => to_ssh_idem h hz,
   fun _ _ _ hg h hz => to_https_idem hg h hz⟩

/-- C4 (witness): the idempotence theorem applied to the bare reference
`"acme/widget"`: both rebuilt URLs are fixed points of their
conversion. -/
theorem claim_C4_witness :
    (to_ssh_url (lit "acme/widget") =
       .ok (lit "git@github.com:acme/widget.git") ∧
     to_ssh_url (lit "git@github.com:acme/widget.git") =
       .ok (lit "git@github.com:acme/widget.git") ∧
     lit "git@github.com:acme/widget.git" =
       lit "git@github.com:acme/widget.git") ∧
    (¬ startsWithL (lit "git@") (lit "acme/widget") ∧
     to_https_url (lit "acme/widget") =
       .ok (lit "https://github.com/acme/widget.git") ∧
     to_https_url (lit "https://github.com/acme/widget.git") =
       .ok (lit "https://github.com/acme/widget.git") ∧
     lit "https://github.com/acme/widget.git" =
       lit "https://github.com/acme/widget.git") :=
  ⟨⟨by decide, by decide,
    claim_C4_theorem.1 (lit "acme/widget")
      (lit "git@github.com:acme/widget.git")
      (lit "git@github.com:acme/widget.git") (by decide) (by decide)⟩,
   ⟨by decide, by decide, by decide,
    claim_C4_theorem.2 (lit "acme/widget")
      (lit "https://github.com/acme/widget.git")
      (lit "https://github.com/acme/widget.git")
      (by decide) (by decide) (by decide)⟩⟩

/-- C5 (counterexample): the round-trip law fails for an owner that is
non-empty and slash-free but contains whitespace: with owner `" a"` and
name `"n"`, `to_ssh_url` strips the reference in the bare branch, so
`https_repo_full_name` recovers `"a/n"` rather than `" a/n"`. -/
theorem claim_C5_counterexample :
    (lit " a" ≠ [] ∧ '/' ∉ lit " a" ∧ lit "n" ≠ [] ∧ '/' ∉ lit "n" ∧
      ¬ endsWithL (lit ".git") (lit "n")) ∧
    to_ssh_url (lit " a" ++ lit "/" ++ lit "n") =
      .ok (lit "git@github.com:a/n.git") ∧
    https_repo_full_name (lit "git@github.com:a/n.git") =
      .ok (some (lit "a/n")) ∧
    lit "a/n" ≠ lit " a" ++ lit "/" ++ lit "n" := by
  decide

/-- C5 (amended): the round-trip law holds for owner and name drawn from
the plain character set (ASCII letters, digits, `-`, `_`, `.`), each
non-empty, with the name not carrying a `.git` suffix:
`fullName(toSshUrl(owner+"/"+name))` and `fullName(toHttpsUrl(...))` both
recover `owner/name`.  (Owners or names with whitespace or URL
metacharacters can break the law, as the counterexample shows.) -/
theorem claim_C5_theorem :
    ∀ o n, SafeStr o → o ≠ [] → SafeStr n → n ≠ [] →
      ¬ endsWithL (lit ".git") n →
      (to_ssh_url (o ++ '/' :: n) >>= https_repo_full_name) =
        .ok (some (o ++ '/' :: n)) ∧
      (to_https_url (o ++ '/' :: n) >>= https_repo_full_name) =
        .ok (some (o ++ '/' :: n)) := by
  intro o n hso ho hsn hn hsuf
  have hx : strip_git_suffix (o ++ '/' :: n) = o ++ '/' :: n :=
    strip_git_of_not (not_endsWith_git_slash hsuf)
  have hone : (o ++ '/' :: n) ≠ [] := by simp
  constructor
  · rw [to_ssh_bare_safe hso ho hsn, hx, bind_ok_eq]
    apply full_name_scp
    · exact all_append hso.no_space (all_cons (by decide) hsn.no_space)
    · intro c hc
      rw [head?_append_cons ho] at hc
      exact (hso c (List.mem_of_mem_head? hc)).not_slash_bool
    · intro c hc
      rw [show (o ++ '/' :: n).reverse = n.reverse ++ '/' :: o.reverse from by
        simp] at hc
      rw [head?_append_cons (by simpa using hn)] at hc
      exact (hsn c (List.mem_reverse.mp (List.mem_of_mem_head? hc))).not_slash_bool
    · exact hone
  · rw [to_https_bare_safe hso ho hsn, hx, bind_ok_eq]
    apply full_name_https_github
    · exact all_append (fun c hc => .inl (hso c hc))
        (all_cons (.inr rfl) (fun c hc => .inl (hsn c hc)))
    · rw [head?_append_cons ho]
      intro hc
      exact absurd (hso '/' (List.mem_of_mem_head? hc)) (by decide)
    · exact hone

/-- C5 (witness): the amended round trip at owner `acme`, name `widget`. -/
theorem claim_C5_witness :
    (to_ssh_url (lit "acme" ++ '/' :: lit "widget") >>= https_repo_full_name) =
      .ok (some (lit "acme" ++ '/' :: lit "widget")) ∧
    (to_https_url (lit "acme" ++ '/' :: lit "widget") >>= https_repo_full_name) =
      .ok (some (lit "acme" ++ '/' :: lit "widget")) :=
  claim_C5_theorem (lit "acme") (lit "widget") (by decide) (by decide)
    (by decide) (by decide) (by decide)

/-- C6 (amended): `to_ssh_url` preserves the host of a URL with authority
and non-empty path (`https://host/...` keeps that host verbatim;
`ssh://host/...` keeps a lowercase plain host); a bare `owner/repo` is
given host `github.com`; a `git@`-prefixed input is returned with the
suffix ensured; and any other no-slash input that does not parse with URL
scheme `ssh` gets the raw-input-plus-suffix fallback (a no-slash `ssh:`
reference is instead reassembled, as the counterexample shows). -/
theorem claim_C6_theorem :
    (∀ host pth, SafeStr host → host ≠ [] → SafeSlashStr pth →
      pth.head? ≠ some '/' →
      to_ssh_url (lit "https://" ++ host ++ '/' :: pth) =
        .ok (lit "git@" ++ host ++ lit ":" ++ strip_git_suffix pth ++ lit ".git")) ∧
    (∀ host pth, SafeStr host → LowerStr host → host ≠ [] → SafeSlashStr pth →
      pth.head? ≠ some '/' →
      to_ssh_url (lit "ssh://" ++ host ++ '/' :: pth) =
        .ok (lit "git@" ++ host ++ lit ":" ++ strip_git_suffix pth ++ lit ".git")) ∧
    (∀ o n, SafeStr o → o ≠ [] → SafeStr n →
      to_ssh_url (o ++ '/' :: n) =
        .ok (lit "git@github.com:" ++ strip_git_suffix (o ++ '/' :: n) ++ lit ".git")) ∧
    (∀ x, startsWithL (lit "git@") x → to_ssh_url x = .ok (ensure_git_suffix x)) ∧
    (∀ x p, '/' ∉ x → pyUrlparse x = .ok p → ¬ p.scheme = lit "ssh" →
      to_ssh_url x = .ok (ensure_git_suffix x)) :=
  ⟨fun _ _ hs hh hp hph => to_ssh_https_host hs hh hp hph,
   fun _ _ hs hl hh hp hph => to_ssh_ssh_host hs hl hh hp hph,
   fun _ _ hso ho hsn => to_ssh_bare_safe hso ho hsn,
   fun _ hg => to_ssh_url_git hg,
   fun _ _ h hp hs => to_ssh_no_slash h hp hs⟩

/-- C6 (witness): each clause of `claim_C6_theorem` at a concrete input. -/
theorem claim_C6_witness :
    to_ssh_url (lit "https://" ++ lit "example.org" ++ '/' :: lit "acme/widget") =
      .ok (lit "git@" ++ lit "example.org" ++ lit ":" ++
           strip_git_suffix (lit "acme/widget") ++ lit ".git") ∧
    to_ssh_url (lit "ssh://" ++ lit "example.org" ++ '/' :: lit "acme/widget.git") =
      .ok (lit "git@" ++ lit "example.org" ++ lit ":" ++
           strip_git_suffix (lit "acme/widget.git") ++ lit ".git") ∧
    to_ssh_url (lit "acme" ++ '/' :: lit "widget") =
      .ok (lit "git@github.com:" ++
           strip_git_suffix (lit "acme" ++ '/' :: lit "widget") ++ lit ".git") ∧
    to_ssh_url (lit "git@github.com:acme/widget") =
      .ok (ensure_git_suffix (lit "git@github.com:acme/widget")) ∧
    to_ssh_url (lit "widget") = .ok (ensure_git_suffix (lit "widget")) :=
  ⟨claim_C6_theorem.1 (lit "example.org") (lit "acme/widget")
     (by decide) (by decide) (by decide) (by decide),
   claim_C6_theorem.2.1 (lit "example.org") (lit "acme/widget.git")
     (by decide) (by decide) (by decide) (by decide) (by decide),
   claim_C6_theorem.2.2.1 (lit "acme") (lit "widget")
     (by decide) (by decide) (by decide),
   claim_C6_theorem.2.2.2.1 (lit "git@github.com:acme/widget") (by decide),
   claim_C6_theorem.2.2.2.2 (lit "widget") ⟨[], [], lit "widget", [], []⟩
     (by decide) (by decide) (by decide)⟩

/-- C7: `to_https_url` maps `git@host:rest` (splitting at the FIRST colon
only, `rest` arbitrary) to `https://host/rest'.git`; maps
`ssh://git@host/path` to `https://host/path'.git`; maps bare `owner/repo`
to `https://github.com/owner/repo.git`; sends the concrete scp example to
its https form; and re-suffixes the raw input on any no-slash reference
not matched by the scp rule. -/
theorem claim_C7_theorem :
    (∀ host rest, ':' ∉ host → '@' ∉ host →
      to_https_url (lit "git@" ++ host ++ ':' :: rest) =
        .ok (lit "https://" ++ host ++ lit "/" ++ strip_git_suffix rest ++ lit ".git")) ∧
    (∀ host pth, SafeStr host → LowerStr host → host ≠ [] → SafeSlashStr pth →
      pth.head? ≠ some '/' →
      to_https_url (lit "ssh://" ++ (lit "git@" ++ host) ++ '/' :: pth) =
        .ok (lit "https://" ++ host ++ lit "/" ++ strip_git_suffix pth ++ lit ".git")) ∧
    (∀ o n, SafeStr o → o ≠ [] → SafeStr n →
      to_https_url (o ++ '/' :: n) =
        .ok (lit "https://github.com/" ++ strip_git_suffix (o ++ '/' :: n) ++ lit ".git")) ∧
    (to_https_url (lit "git@github.com:acme/widget.git") =
      .ok (lit "https://github.com/acme/widget.git")) ∧
    (∀ x, '/' ∉ x → (startsWithL (lit "git@") x → ':' ∉ x) →
      to_https_url x = .ok (ensure_git_suffix x)) :=
  ⟨fun _ _ hc hat => to_https_git_host hc hat,
   fun _ _ hs hl hh hp hph => to_https_ssh_githost hs hl hh hp hph,
   fun _ _ hso ho hsn => to_https_bare_safe hso ho hsn,
   by decide,
   fun _ h hgc => to_https_no_slash h hgc⟩

/-- C7 (witness): each quantified clause of `claim_C7_theorem` at a
concrete input. -/
theorem claim_C7_witness :
    to_https_url (lit "git@" ++ lit "example.org" ++ ':' :: lit "acme/widget.git") =
      .ok (lit "https://" ++ lit "example.org" ++ lit "/" ++
           strip_git_suffix (lit "acme/widget.git") ++ lit ".git") ∧
    to_https_url (lit "ssh://" ++ (lit "git@" ++ lit "example.org") ++ '/' :: lit "acme/widget") =
      .ok (lit "https://" ++ lit "example.org" ++ lit "/" ++
           strip_git_suffix (lit "acme/widget") ++ lit ".git") ∧
    to_https_url (lit "acme" ++ '/' :: lit "widget") =
      .ok (lit "https://github.com/" ++
           strip_git_suffix (lit "acme" ++ '/' :: lit "widget") ++ lit ".git") ∧
    to_https_url (lit "widget") = .ok (ensure_git_suffix (lit "widget")) :=
  ⟨claim_C7_theorem.1 (lit "example.org") (lit "acme/widget.git")
     (by decide) (by decide),
   claim_C7_theorem.2.1 (lit "example.org") (lit "acme/widget")
     (by decide) (by decide) (by decide) (by decide) (by decide),
   claim_C7_theorem.2.2.1 (lit "acme") (lit "widget")
     (by decide) (by decide) (by decide),
   claim_C7_theorem.2.2.2.2 (lit "widget") (by decide) (fun h => absurd h (by decide))⟩

/-- C6 (counterexample): the no-slash fallback of `to_ssh_url` is not
"ensure the `.git` suffix on the raw input" for every other no-slash
reference: `"ssh:a"` parses with scheme `ssh` and is reassembled as
`"git@:a.git"`, not `"ssh:a.git"`. -/
theorem claim_C6_counterexample :
    to_ssh_url (lit "ssh:a") = .ok (lit "git@:a.git") ∧
    lit "git@:a.git" ≠ ensure_git_suffix (lit "ssh:a") := by
  decide
